import Mathlib

/-!
# Verification of the mini-React reconciliation engine

Shallow embedding of the repository's core (virtual-node normalization,
path identity assignment, the hook store, and the reconciler) together
with proofs of the behavioural claims about it.

Sources embedded:
* `src/packages/react/src/core/elements.ts` and `src/unnamed/part_001`
  (normalization and child-path assignment; the two files ship different
  `createChildPath` implementations, embedded separately below),
* `src/packages/react/src/core/hooks.ts` and
  `src/packages/react/src/utils/equals.ts` (hook store, effects,
  shallow equality),
* `src/packages/react/src/core/reconciler.ts` and `src/unnamed/part_000`
  (reconciler and host-surface operations),
* `src/unnamed/part_002` (`setup`).

Pieces of the repository that the sources reference but that are not in
the provided tree (`constants.ts`, `context.ts`, `utils/index`) are
modelled from the spec; each such definition carries a doc comment
starting with `Modelled from the spec:`.
-/

set_option maxHeartbeats 1000000

namespace MiniReact

/-! ## Raw JavaScript values (inputs of `normalizeNode` / `createElement`)

`normalizeNode` accepts arbitrary JavaScript values.  We embed them as an
inductive: primitives, symbols, function references (with their `.name`),
arrays, and objects.  An object is represented with its `type` / `key` /
`props` slots explicit (these are the fields the normalizer reads and
writes; `none` = absent) plus an association list for every other field.
Structural equality of this type models the "equivalent node" notion of
the spec; `Object.is` is not involved in normalization. -/

inductive RawVal : Type where
  | rnull
  | rundef
  | rbool (b : Bool)
  | rnum (n : Int)
  | rstr (s : String)
  | rsym (id : Nat)
  | rfun (id : Nat) (name : String)
  | rarr (elems : List RawVal)
  | robj (type : Option RawVal) (key : Option RawVal) (props : Option RawVal)
         (rest : List (String × RawVal))

/-- Modelled from the spec: `constants.ts` is absent from the sources; the
`Fragment` marker is a distinguished symbol. -/
def Fragment : RawVal := .rsym 0

/-- Modelled from the spec: `constants.ts` is absent from the sources; the
`TEXT_ELEMENT` marker is a distinguished symbol. -/
def TEXT_ELEMENT : RawVal := .rsym 1

/-- Modelled from the spec: `isEmptyValue` lives in the (absent)
`src/packages/react/src/utils` index; per spec §4.1 and the claim,
`null`, `undefined` and boolean values render nothing. -/
def isEmptyValue : RawVal → Bool
  | .rnull | .rundef | .rbool _ => true
  | _ => false

/-- `String(v)` as used by `createTextElement`.  Only the primitive cases are
ever reached from `normalizeNode` (arrays and objects take earlier
branches); the remaining cases are given deterministic values. -/
def jsToString : RawVal → String
  | .rnull => "null"
  | .rundef => "undefined"
  | .rbool true => "true"
  | .rbool false => "false"
  | .rnum n => toString n
  | .rstr s => s
  | .rsym id => "Symbol(" ++ toString id ++ ")"
  | .rfun _ name => "function " ++ name
  | .rarr _ => ""
  | .robj _ _ _ _ => "[object Object]"

/-- `rawChildren.flat(Infinity)`: deep array flattening. -/
def flattenRaw : List RawVal → List RawVal
  | [] => []
  | .rarr ys :: rest => flattenRaw ys ++ flattenRaw rest
  | x :: rest => x :: flattenRaw rest

theorem flattenRaw_sizeOf {l : List RawVal} {c : RawVal}
    (h : c ∈ flattenRaw l) : sizeOf c < sizeOf l := by
  induction l using flattenRaw.induct with
  | case1 => simp [flattenRaw] at h
  | case2 ys rest ih1 ih2 =>
    rw [flattenRaw] at h
    rcases List.mem_append.mp h with h' | h'
    · have := ih1 h'
      simp only [List.cons.sizeOf_spec, RawVal.rarr.sizeOf_spec]
      omega
    · have := ih2 h'
      simp only [List.cons.sizeOf_spec]
      omega
  | case3 x rest hx ih =>
    have heq : flattenRaw (x :: rest) = x :: flattenRaw rest := by
      rw [flattenRaw]
      exact hx
    rw [heq] at h
    rcases List.mem_cons.mp h with h' | h'
    · subst h'
      simp only [List.cons.sizeOf_spec]
      omega
    · have := ih h'
      simp only [List.cons.sizeOf_spec]
      omega

/-- `createTextElement` from `elements.ts`: a Text VNode carrying the
stringified value. -/
def createTextElement (node : RawVal) : RawVal :=
  .robj (some TEXT_ELEMENT) (some .rnull)
    (some (.robj none none none
      [("children", .rarr []), ("nodeValue", .rstr (jsToString node))]))
    []

/-- The destructuring `const { key = null, ...restProps } = originProps || {}`
of `createElement`: returns the extracted key (defaulted to `null` when
absent or `undefined`) and the remaining object slots. -/
def destructKey : Option RawVal →
    RawVal × Option RawVal × Option RawVal × List (String × RawVal)
  | some (.robj t k p r) =>
    let key : RawVal :=
      match k with
      | none => .rnull
      | some .rundef => .rnull
      | some v => v
    (key, t, p, r)
  | _ => (.rnull, none, none, [])

/-- JS property assignment `obj[k] = v` on the association-list part of an
object: replaces the first binding of `k`, else appends. -/
def setObjField : List (String × RawVal) → String → RawVal → List (String × RawVal)
  | [], k, v => [(k, v)]
  | (k', v') :: rest, k, v =>
    if k' = k then (k, v) :: rest else (k', v') :: setObjField rest k v

/-- `field ?? null` on an optional object field: absent, `null` and
`undefined` all coalesce to `null`. -/
def jsNullish : Option RawVal → RawVal
  | none => .rnull
  | some .rnull => .rnull
  | some .rundef => .rnull
  | some v => v

mutual

/-- `normalizeNode` from `elements.ts` / `part_001` (both copies are
identical): empty values normalize to `null` (`none`); arrays become a
Fragment element over the flattened normalized children; non-object
primitives become a Text VNode; objects pass through with `props` and
`key` defaulted to `null`. -/
def normalizeNode (node : RawVal) : Option RawVal :=
  if isEmptyValue node then none
  else
    match node with
    | .rarr xs => some (createElement Fragment none xs)
    | .robj t k p r => some (.robj t (some (jsNullish k)) (some (jsNullish p)) r)
    | prim => some (createTextElement prim)
termination_by sizeOf node
decreasing_by
  simp only [RawVal.rarr.sizeOf_spec]; omega

/-- `createElement` from `elements.ts` / `part_001`: extracts `key` from
the origin props, deep-flattens the raw children, normalizes each and
drops the empty ones, and stores the result under `props.children` when
non-empty. -/
def createElement (type : RawVal) (originProps : Option RawVal)
    (rawChildren : List RawVal) : RawVal :=
  let d := destructKey originProps
  let children : List RawVal :=
    (flattenRaw rawChildren).attach.filterMap fun c => normalizeNode c.1
  let propsObj : RawVal :=
    if children.isEmpty then .robj d.2.1 none d.2.2.1 d.2.2.2
    else .robj d.2.1 none d.2.2.1 (setObjField d.2.2.2 "children" (.rarr children))
  .robj (some type) (some d.1) (some propsObj) []
termination_by sizeOf rawChildren
decreasing_by
  have := flattenRaw_sizeOf c.2; omega

end

/-! ## Typed virtual nodes

Everything downstream of `createElement` only ever sees normalized
VNodes: `type` is a host tag string, one of the two marker symbols, or a
component function; `key` is a string or `null`; `props` is an object
bag.  We embed that shape directly.  Props are split the way the host
renderer consumes them: generic fields (excluding the reserved
`children` / `style` keys, which every prop loop in `dom.ts` skips or
handles specially), the `style` sub-object, the `children` list (absent
≡ `[]`: every reader uses `props?.children ?? []`), and `nodeValue`
(read via `props?.nodeValue ?? ""`).  A `null` props bag behaves as an
empty bag for every reader, so `props` is inlined. -/

/-- A generic prop value (entries of the props bag other than
`children`/`style`). `pfn` is a function reference (e.g. an event
handler), identified by reference id. -/
inductive PropVal : Type where
  | pnull
  | pundef
  | pbool (b : Bool)
  | pnum (n : Int)
  | pstr (s : String)
  | pfn (id : Nat)
  deriving DecidableEq, Repr

/-- A value inside the `style` sub-object. -/
inductive StyleVal : Type where
  | snull
  | sundef
  | snum (n : Int)
  | sstr (s : String)
  deriving DecidableEq, Repr

/-- The `type` of a normalized VNode: the `TEXT_ELEMENT` marker, the
`Fragment` marker, a host tag string, or a component function reference
(`id` is the function's reference identity, `name` its `.name`). -/
inductive NType : Type where
  | text
  | fragment
  | host (tag : String)
  | comp (id : Nat) (name : String)
  deriving DecidableEq, Repr

/-- A normalized VNode. -/
inductive VNode : Type where
  | mk (type : NType) (key : Option String)
       (fields : List (String × PropVal))
       (style : Option (List (String × StyleVal)))
       (children : List VNode)
       (nodeValue : Option String)

def VNode.type : VNode → NType
  | .mk t _ _ _ _ _ => t

def VNode.key : VNode → Option String
  | .mk _ k _ _ _ _ => k

def VNode.fields : VNode → List (String × PropVal)
  | .mk _ _ f _ _ _ => f

def VNode.style : VNode → Option (List (String × StyleVal))
  | .mk _ _ _ s _ _ => s

def VNode.children : VNode → List VNode
  | .mk _ _ _ _ c _ => c

def VNode.nodeValue : VNode → Option String
  | .mk _ _ _ _ _ v => v

/-! ## Path identity assignment

The repository ships two implementations of `createChildPath`:
`src/packages/react/src/core/elements.ts` (the copy imported by
`reconciler.ts`, namespace `Elements`) and `src/unnamed/part_001`
(namespace `ElementsB`).  They differ: the `Elements` copy emits the
bare occurrence count as positional token and does not encode keys; the
`ElementsB` copy percent-encodes keys and uses `i`/`f`/`c`-prefixed
tokens. -/

/-- An uppercase hex digit. -/
def hexDigit (n : Nat) : Char :=
  if n < 10 then Char.ofNat (48 + n) else Char.ofNat (55 + n)

/-- `"%XX"` for one byte. -/
def percentByte (b : Nat) : String :=
  String.mk [Char.ofNat 37, hexDigit (b / 16), hexDigit (b % 16)]

/-- The UTF-8 bytes of a character. -/
def utf8Bytes (c : Char) : List Nat :=
  let n := c.toNat
  if n < 128 then [n]
  else if n < 2048 then [192 + n / 64, 128 + n % 64]
  else if n < 65536 then [224 + n / 4096, 128 + (n / 64) % 64, 128 + n % 64]
  else [240 + n / 262144, 128 + (n / 4096) % 64, 128 + (n / 64) % 64, 128 + n % 64]

/-- The characters `encodeURIComponent` leaves unescaped:
ASCII alphanumerics and `- _ . ! ~ * ' ( )`. -/
def uriUnreserved (c : Char) : Bool :=
  (Char.ofNat 65 ≤ c && c ≤ Char.ofNat 90) ||
  (Char.ofNat 97 ≤ c && c ≤ Char.ofNat 122) ||
  (Char.ofNat 48 ≤ c && c ≤ Char.ofNat 57) ||
  c ∈ [Char.ofNat 45, Char.ofNat 95, Char.ofNat 46, Char.ofNat 33,
       Char.ofNat 126, Char.ofNat 42, Char.ofNat 39, Char.ofNat 40, Char.ofNat 41]

/-- JavaScript's `encodeURIComponent`: unreserved characters pass
through, everything else is percent-encoded per UTF-8 byte. -/
def encodeURIComponent (s : String) : String :=
  String.join (s.data.map fun c =>
    if uriUnreserved c then String.mk [c]
    else String.join ((utf8Bytes c).map percentByte))

namespace Elements

/-- `createChildPath` from `src/packages/react/src/core/elements.ts`
(the copy `reconciler.ts` imports): keyed children get the raw
`k`-prefixed key; keyless fragments get `f` plus the count of preceding
keyless same-type siblings; every other keyless child gets the bare
count of preceding keyless same-type siblings. -/
def createChildPath (parentPath : String) (key : Option String) (index : Nat)
    (nodeType : Option NType) (siblings : List VNode) : String :=
  match key with
  | some k => if parentPath ≠ "" then parentPath ++ ".k" ++ k else "k" ++ k
  | none =>
    let prevSiblings := siblings.take index
    let count := (prevSiblings.filter fun s =>
      decide (some s.type = nodeType) && decide (s.key = none)).length
    let token := if nodeType = some NType.fragment then "f" ++ toString count
                 else toString count
    if parentPath ≠ "" then parentPath ++ "." ++ token else token

end Elements

namespace ElementsB

/-- `createChildPath` from `src/unnamed/part_001`: keyed children get
`k` plus the `encodeURIComponent`-encoded key; keyless fragments get
`f` plus the count of preceding keyless Fragment siblings; keyless
components get `c` plus the function's name (`"Anonymous"` when empty)
plus `_` plus the count of preceding keyless siblings with the
identical function reference; all other keyless children get the purely
positional `i` plus the index. -/
def createChildPath (parentPath : String) (key : Option String) (index : Nat)
    (nodeType : Option NType) (siblings : List VNode) : String :=
  match key with
  | some k =>
    let encodedKey := encodeURIComponent k
    if parentPath ≠ "" then parentPath ++ ".k" ++ encodedKey else "k" ++ encodedKey
  | none =>
    let prevSiblings := siblings.take index
    match nodeType with
    | some NType.fragment =>
      let count := (prevSiblings.filter fun s =>
        decide (s.type = NType.fragment) && decide (s.key = none)).length
      let token := "f" ++ toString count
      if parentPath ≠ "" then parentPath ++ "." ++ token else token
    | some (NType.comp cid cname) =>
      let componentName := if cname = "" then "Anonymous" else cname
      let count := (prevSiblings.filter fun s =>
        decide (s.type = NType.comp cid cname) && decide (s.key = none)).length
      let token := "c" ++ componentName ++ "_" ++ toString count
      if parentPath ≠ "" then parentPath ++ "." ++ token else token
    | _ =>
      let token := "i" ++ toString index
      if parentPath ≠ "" then parentPath ++ "." ++ token else token

end ElementsB

/-! ## Claim C7: idempotence of `normalizeNode` -/

theorem jsNullish_idem (o : Option RawVal) :
    jsNullish (some (jsNullish o)) = jsNullish o := by
  cases o with
  | none => rfl
  | some v => cases v <;> rfl

theorem isEmptyValue_jsNullish_ne_undef (o : Option RawVal) :
    jsNullish o ≠ .rundef := by
  cases o with
  | none => simp [jsNullish]
  | some v => cases v <;> simp [jsNullish]

/-- `normalizeNode` on an object: the passthrough equation. -/
theorem normalizeNode_robj (t k p : Option RawVal) (r : List (String × RawVal)) :
    normalizeNode (.robj t k p r) =
      some (.robj t (some (jsNullish k)) (some (jsNullish p)) r) := by
  rw [normalizeNode]
  rfl

theorem normalizeNode_rarr (xs : List RawVal) :
    normalizeNode (.rarr xs) = some (createElement Fragment none xs) := by
  rw [normalizeNode]
  rfl

/-- `createElement` with no origin props produces a VNode-shaped object
whose key is `null` and whose props slot is an object. -/
theorem createElement_none_shape (ty : RawVal) (xs : List RawVal) :
    ∃ d, createElement ty none xs = .robj (some ty) (some .rnull) (some (.robj none none none d)) [] := by
  rw [createElement]
  simp only [destructKey]
  split <;> exact ⟨_, rfl⟩

/-- Claim C7: `normalizeNode` is idempotent — re-normalizing its output
yields the same value — and empty inputs (null / undefined / booleans,
including `null` itself) normalize to `null`. -/
theorem c7_normalizeNode_idempotent (x : RawVal) :
    (normalizeNode x).bind normalizeNode = normalizeNode x ∧
      (isEmptyValue x = true → normalizeNode x = none) := by
  constructor
  · cases x with
    | rnull => rw [normalizeNode.eq_def]; rfl
    | rundef => rw [normalizeNode.eq_def]; rfl
    | rbool b => rw [normalizeNode.eq_def]; rfl
    | rnum n =>
      rw [normalizeNode.eq_def]
      show normalizeNode (createTextElement (.rnum n)) = _
      rw [createTextElement, normalizeNode_robj]
      rfl
    | rstr s =>
      rw [normalizeNode.eq_def]
      show normalizeNode (createTextElement (.rstr s)) = _
      rw [createTextElement, normalizeNode_robj]
      rfl
    | rsym id =>
      rw [normalizeNode.eq_def]
      show normalizeNode (createTextElement (.rsym id)) = _
      rw [createTextElement, normalizeNode_robj]
      rfl
    | rfun id name =>
      rw [normalizeNode.eq_def]
      show normalizeNode (createTextElement (.rfun id name)) = _
      rw [createTextElement, normalizeNode_robj]
      rfl
    | rarr xs =>
      rw [normalizeNode_rarr]
      obtain ⟨d, hd⟩ := createElement_none_shape Fragment xs
      show normalizeNode (createElement Fragment none xs) = _
      rw [hd, normalizeNode_robj]
      rfl
    | robj t k p r =>
      rw [normalizeNode_robj, Option.some_bind, normalizeNode_robj,
        jsNullish_idem, jsNullish_idem]
  · intro h
    cases x <;> simp [isEmptyValue] at h <;> (rw [normalizeNode.eq_def]; rfl)

/-- Witness for C7 at a concrete input. -/
theorem c7_normalizeNode_idempotent_witness :
    (normalizeNode (.rbool true)).bind normalizeNode = normalizeNode (.rbool true) ∧
      normalizeNode (.rbool true) = none :=
  ⟨(c7_normalizeNode_idempotent (.rbool true)).1,
   (c7_normalizeNode_idempotent (.rbool true)).2 rfl⟩

/-! ## Claim C2: `createChildPath` of `part_001`

The claim's case analysis matches the code, except for its description
of the key encoding: `encodeURIComponent` does *not* escape the path
separator `.` (nor the prefix letters `k`/`f`/`c`/`i`), so an encoded
key can contain the bare separator.  The key token still never equals a
positional token, because it always starts with `k` while positional
tokens start with `f`, `c` or `i`. -/

/-- The amended claim's description of `ElementsB.createChildPath`,
stated in the claim's words: a token computed by the four-way case
analysis (with the encoding being `encodeURIComponent`), joined to a
non-empty parent path with `"."`. -/
def childPathSpec (parentPath : String) (key : Option String) (index : Nat)
    (nodeType : Option NType) (siblings : List VNode) : String :=
  let token : String :=
    match key with
    | some k => "k" ++ encodeURIComponent k
    | none =>
      match nodeType with
      | some NType.fragment =>
        "f" ++ toString ((siblings.take index).filter fun s =>
          decide (s.type = NType.fragment) && decide (s.key = none)).length
      | some (NType.comp cid cname) =>
        "c" ++ (if cname = "" then "Anonymous" else cname) ++ "_" ++
          toString ((siblings.take index).filter fun s =>
            decide (s.type = NType.comp cid cname) && decide (s.key = none)).length
      | some (NType.host _) => "i" ++ toString index
      | some NType.text => "i" ++ toString index
      | none => "i" ++ toString index
  if parentPath = "" then token else parentPath ++ "." ++ token

/-- Counterexample to C2 as stated: the key encoding does not escape the
path separator — the key `"a.b"` is encoded verbatim, so the resulting
key token `"ka.b"` contains the bare separator `.`. -/
theorem c2_createChildPath_counterexample :
    ElementsB.createChildPath "p" (some "a.b") 0 (some (NType.host "div")) [] = "p.ka.b" ∧
      encodeURIComponent "a.b" = "a.b" ∧
      Char.ofNat 46 ∈ (encodeURIComponent "a.b").data := by
  refine ⟨?_, ?_, ?_⟩ <;> decide

/-- Claim C2 (amended): `ElementsB.createChildPath` computes exactly the
claimed four-way token (key tokens use `encodeURIComponent`, which
leaves the separator and prefix letters unescaped) joined to a
non-empty parent path with `"."`; and a key token always starts with
`k`, hence never equals an `i`-, `f`- or `c`-prefixed positional
token. -/
theorem c2_createChildPath_spec :
    (∀ parentPath key index nodeType siblings,
      ElementsB.createChildPath parentPath key index nodeType siblings =
        childPathSpec parentPath key index nodeType siblings) ∧
    (∀ k : String, ("k" ++ encodeURIComponent k).data.head? = some (Char.ofNat 107)) ∧
    (∀ (k s : String), ("k" ++ encodeURIComponent k) ≠ "i" ++ s) ∧
    (∀ (k s : String), ("k" ++ encodeURIComponent k) ≠ "f" ++ s) ∧
    (∀ (k s : String), ("k" ++ encodeURIComponent k) ≠ "c" ++ s) := by
  have hne : ∀ (c d : Char) (a b : String), c ≠ d →
      (String.mk [c] ++ a) ≠ (String.mk [d] ++ b) := by
    intro c d a b hcd h
    have h2 := congrArg String.data h
    have h3 : c :: a.data = d :: b.data := h2
    exact hcd (List.cons.injEq .. ▸ h3 |>.1)
  refine ⟨?_, ?_, ?_, ?_, ?_⟩
  · intro parentPath key index nodeType siblings
    cases key with
    | some k =>
      show (if parentPath ≠ "" then _ else _) = _
      rw [childPathSpec]
      by_cases hp : parentPath = "" <;>
        simp [hp, String.append_assoc]
      rfl
    | none =>
      match nodeType with
      | some NType.fragment =>
        show (if parentPath ≠ "" then _ else _) = _
        rw [childPathSpec]
        by_cases hp : parentPath = "" <;> simp [hp]
      | some (NType.comp cid cname) =>
        show (if parentPath ≠ "" then _ else _) = _
        rw [childPathSpec]
        by_cases hp : parentPath = "" <;> simp [hp]
      | some (NType.host tag) =>
        show (if parentPath ≠ "" then _ else _) = _
        rw [childPathSpec]
        by_cases hp : parentPath = "" <;> simp [hp]
      | some NType.text =>
        show (if parentPath ≠ "" then _ else _) = _
        rw [childPathSpec]
        by_cases hp : parentPath = "" <;> simp [hp]
      | none =>
        show (if parentPath ≠ "" then _ else _) = _
        rw [childPathSpec]
        by_cases hp : parentPath = "" <;> simp [hp]
  · intro k
    show (("k").data ++ (encodeURIComponent k).data).head? = _
    rfl
  · intro k s
    exact hne (Char.ofNat 107) (Char.ofNat 105) (encodeURIComponent k) s (by decide)
  · intro k s
    exact hne (Char.ofNat 107) (Char.ofNat 102) (encodeURIComponent k) s (by decide)
  · intro k s
    exact hne (Char.ofNat 107) (Char.ofNat 99) (encodeURIComponent k) s (by decide)

/-- Witness for C2's amended theorem at concrete inputs. -/
theorem c2_createChildPath_spec_witness :
    ElementsB.createChildPath "0" (some "x") 2 (some (NType.host "li")) [] =
      childPathSpec "0" (some "x") 2 (some (NType.host "li")) [] ∧
      ("k" ++ encodeURIComponent "x") ≠ "i" ++ "2" :=
  ⟨c2_createChildPath_spec.1 "0" (some "x") 2 (some (NType.host "li")) [],
   c2_createChildPath_spec.2.2.1 "x" "2"⟩

/-! ## JavaScript values with reference identity (hooks and `equals.ts`)

Hook state and effect dependencies are arbitrary JavaScript values
compared with `Object.is`.  We embed them with explicit reference
identities on symbols, functions, arrays and objects: `Object.is` is
value equality on primitives and reference-id equality on reference
types. -/

inductive JsVal : Type where
  | jnull
  | jundef
  | jbool (b : Bool)
  | jnum (n : Int)
  | jstr (s : String)
  | jsym (id : Nat)
  | jfun (id : Nat)
  | jarr (id : Nat) (elems : List JsVal)
  | jobj (id : Nat) (fields : List (String × JsVal))

/-- `typeof`. -/
def typeofJs : JsVal → String
  | .jnull => "object"
  | .jundef => "undefined"
  | .jbool _ => "boolean"
  | .jnum _ => "number"
  | .jstr _ => "string"
  | .jsym _ => "symbol"
  | .jfun _ => "function"
  | .jarr _ _ => "object"
  | .jobj _ _ => "object"

/-- `Object.is`: structural on primitives, reference identity on
symbols, functions, arrays and objects. -/
def objectIs : JsVal → JsVal → Bool
  | .jnull, .jnull => true
  | .jundef, .jundef => true
  | .jbool a, .jbool b => a == b
  | .jnum a, .jnum b => a == b
  | .jstr a, .jstr b => a == b
  | .jsym a, .jsym b => a == b
  | .jfun a, .jfun b => a == b
  | .jarr a _, .jarr b _ => a == b
  | .jobj a _, .jobj b _ => a == b
  | _, _ => false

def isArrayJs : JsVal → Bool
  | .jarr _ _ => true
  | _ => false

def isNullJs : JsVal → Bool
  | .jnull => true
  | _ => false

def arrElems : JsVal → List JsVal
  | .jarr _ xs => xs
  | _ => []

def objFields : JsVal → List (String × JsVal)
  | .jobj _ fs => fs
  | _ => []

/-- First binding of a key in an object's field list (`obj[key]` /
`hasOwnProperty`). -/
def lookupField (fs : List (String × JsVal)) (k : String) : Option JsVal :=
  (fs.find? fun kv => kv.1 == k).map fun kv => kv.2

/-- `shallowEquals` from `src/packages/react/src/utils/equals.ts`:
`Object.is` short-circuit, `typeof` mismatch, `null` rejection, array
branch (same length, element-wise `Object.is`), object branch (same key
count, every own key present in the other with `Object.is`-equal
value), then `Object.is` for the remaining primitives. -/
def shallowEquals (a b : JsVal) : Bool :=
  if objectIs a b then true
  else if typeofJs a != typeofJs b then false
  else if isNullJs a || isNullJs b then false
  else if isArrayJs a || isArrayJs b then
    if !(isArrayJs a && isArrayJs b) then false
    else
      let xs := arrElems a
      let ys := arrElems b
      if xs.length != ys.length then false
      else (List.zip xs ys).all fun p => objectIs p.1 p.2
  else if typeofJs a == "object" then
    let aFs := objFields a
    let bFs := objFields b
    if aFs.length != bFs.length then false
    else aFs.all fun kv =>
      match lookupField bFs kv.1 with
      | some v => objectIs kv.2 v
      | none => false
  else objectIs a b

/-! ## The hook store (`hooks.ts`)

State is keyed by path.  JavaScript's per-path hook storage is a
mutable array object which `setState` closures capture by reference and
which survives deletion of its `state` map entry, so the embedding
separates the `state` map (path ⇒ array reference) from the array store
(`heap`: reference ⇒ contents).  The `context.ts` module is absent from
the sources; per the spec (§4.5, §9) it supplies the ambient current
path and cursor (threaded here as arguments), a fresh array for a new
path, the visited-path set, the process-wide effect queue, and the
render scheduler flag. -/

/-- A hook record: a state slot holding a value, or an effect record
holding the stored deps (`none` = `null`), the stored cleanup function
reference, and the effect function reference. -/
inductive Hook : Type where
  | stateHook (value : JsVal)
  | effectHook (deps : Option JsVal) (cleanup : Option Nat) (effectId : Nat)

/-- A `{ path, cursor }` effect-queue entry. -/
structure EffectEntry where
  path : String
  cursor : Nat
  deriving DecidableEq, Repr

/-- The hook-subsystem state (the `context.hooks` / `context.effects`
registries plus the cleanup-invocation log and the scheduler flags). -/
structure HCtx where
  state : List (String × Nat)
  heap : List (Nat × List Hook)
  nextRef : Nat
  cursor : List (String × Nat)
  visited : List String
  queue : List EffectEntry
  cleanupLog : List Nat
  renderRequested : Bool
  flushRequested : Bool

/-- `Map.get`. -/
def alistGet {α : Type} (l : List (String × α)) (k : String) : Option α :=
  (l.find? fun e => e.1 == k).map fun e => e.2

/-- `Map.set`: replaces in place, else appends (JS `Map` insertion
order). -/
def alistSet {α : Type} : List (String × α) → String → α → List (String × α)
  | [], k, v => [(k, v)]
  | e :: rest, k, v =>
    if e.1 = k then (k, v) :: rest else e :: alistSet rest k v

/-- `Map.has`. -/
def alistHas {α : Type} (l : List (String × α)) (k : String) : Bool :=
  l.any fun e => e.1 == k

/-- `Map.delete`. -/
def alistDel {α : Type} (l : List (String × α)) (k : String) : List (String × α) :=
  l.filter fun e => e.1 != k

/-- Array-store read: the contents of array reference `r`. -/
def heapGet (h : List (Nat × List Hook)) (r : Nat) : List Hook :=
  match h.find? fun e => e.1 == r with
  | some e => e.2
  | none => []

/-- Array-store write. -/
def heapSet : List (Nat × List Hook) → Nat → List Hook → List (Nat × List Hook)
  | [], r, v => [(r, v)]
  | e :: rest, r, v =>
    if e.1 = r then (r, v) :: rest else e :: heapSet rest r v

/-- `Set.add`. -/
def addVisited (l : List String) (p : String) : List String :=
  if l.contains p then l else l ++ [p]

/-- Reading a hook slot as a state value (`hooksForPath[i] as T`);
reading an effect record or a hole yields `undefined`-like junk. -/
def hookValue : Hook → JsVal
  | .stateHook v => v
  | .effectHook _ _ _ => (.jundef)

/-- `const hooksForPath = state.get(path) ?? currentHooks` followed by
`if (!state.has(path)) state.set(path, hooksForPath)`.  Modelled from
the spec: the ambient `currentHooks` of the absent `context.ts` is a
fresh empty array for the current component, allocated here when the
path has no storage yet. -/
def ensurePathArray (path : String) (c : HCtx) : Nat × HCtx :=
  match alistGet c.state path with
  | some r => (r, c)
  | none =>
    (c.nextRef,
     { c with
        heap := heapSet c.heap c.nextRef [],
        state := alistSet c.state path c.nextRef,
        nextRef := c.nextRef + 1 })

/-- `useState`'s initial argument: a plain value, or an initializer
function (the `typeof initialValue === "function"` branch). -/
inductive StateInit : Type where
  | value (v : JsVal)
  | thunk (f : Unit → JsVal)

def resolveInit : StateInit → JsVal
  | .value v => v
  | .thunk f => f ()

/-- `setState`'s argument: a plain next value, or an updater over the
previous value (the `typeof nextValue === "function"` branch). -/
inductive NextValue : Type where
  | value (v : JsVal)
  | updater (f : JsVal → JsVal)

def resolveNext : NextValue → JsVal → JsVal
  | .value v, _ => v
  | .updater f, prev => f prev

/-- Modelled from the spec: `enqueueRender` (`render.ts` via the absent
`withEnqueue` util) marks a render pass as requested. -/
def enqueueRender (c : HCtx) : HCtx :=
  { c with renderRequested := true }

/-- The hook-slot value visible at `(array ref, index)`. -/
def readHookValue (c : HCtx) (r : Nat) (idx : Nat) : JsVal :=
  match (heapGet c.heap r).get? idx with
  | some h => hookValue h
  | none => (.jundef)

/-- The setter returned by `useState` (closure over the hooks array
reference and the slot index): resolves the next value against the
previous one, is a no-op when `Object.is`-equal, else stores in place
and requests a render. -/
def setState (r : Nat) (hookIndex : Nat) (nextValue : NextValue) (c : HCtx) : HCtx :=
  let arr := heapGet c.heap r
  let prev : JsVal :=
    match arr.get? hookIndex with
    | some h => hookValue h
    | none => .jundef
  let resolved := resolveNext nextValue prev
  if objectIs prev resolved then c
  else
    enqueueRender { c with heap := heapSet c.heap r (arr.set hookIndex (.stateHook resolved)) }

/-- `useState` from `hooks.ts`: seeds the slot on first render, returns
the current value and the captured setter handle, bumps the per-path
cursor and marks the path visited.  `path` and `hookIndex` are the
ambient `currentPath` / `currentCursor`. -/
def useState (path : String) (hookIndex : Nat) (initialValue : StateInit) (c : HCtx) :
    JsVal × (Nat × Nat) × HCtx :=
  let rc := ensurePathArray path c
  let r := rc.1
  let c := rc.2
  let arr := heapGet c.heap r
  let ac : List Hook × HCtx :=
    if arr.length ≤ hookIndex then
      let value := resolveInit initialValue
      let arr' := arr ++ [Hook.stateHook value]
      (arr', { c with heap := heapSet c.heap r arr' })
    else (arr, c)
  let arr := ac.1
  let c := ac.2
  let currentState : JsVal :=
    match arr.get? hookIndex with
    | some h => hookValue h
    | none => .jundef
  let c := { c with
    cursor := alistSet c.cursor path (hookIndex + 1),
    visited := addVisited c.visited path }
  (currentState, (r, hookIndex), c)

/-- JS array index assignment `arr[i] = v` (extends the array with
holes when `i ≥ length`). -/
def listSetExtend (l : List Hook) (i : Nat) (h : Hook) : List Hook :=
  if i < l.length then l.set i h
  else l ++ List.replicate (i - l.length) (Hook.stateHook .jundef) ++ [h]

/-- The stored deps of a previous hook record (`prevHook?.deps`):
`none` models both "no previous hook / not an effect record" and a
stored `null`. -/
def hookDeps : Option Hook → Option JsVal
  | some (.effectHook d _ _) => d
  | _ => none

/-- The stored cleanup of a previous hook record
(`prevHook?.cleanup ?? null`). -/
def hookCleanup : Option Hook → Option Nat
  | some (.effectHook _ cl _) => cl
  | _ => none

/-- `useEffect` from `hooks.ts`: decides re-run from the previous
record's deps (`!deps || !prevHook || !prevDeps ||
!shallowEquals(prevDeps, deps)`), invokes the previous cleanup and
enqueues a `{ path, cursor }` entry when it must run, requests the
asynchronous flush, then stores the new effect record (which keeps the
previous cleanup until the flush replaces it). -/
def useEffect (path : String) (hookIndex : Nat) (effectId : Nat)
    (deps : Option JsVal) (c : HCtx) : HCtx :=
  let rc := ensurePathArray path c
  let r := rc.1
  let c := rc.2
  let arr := heapGet c.heap r
  let prevHook : Option Hook := arr.get? hookIndex
  let prevDeps : Option JsVal := hookDeps prevHook
  let shouldRun : Bool :=
    deps.isNone || prevHook.isNone || prevDeps.isNone ||
      !(shallowEquals (prevDeps.getD .jundef) (deps.getD .jundef))
  let cleanup : Option Nat := hookCleanup prevHook
  let c :=
    if shouldRun then
      let c :=
        match cleanup with
        | some cl => { c with cleanupLog := c.cleanupLog ++ [cl] }
        | none => c
      { c with queue := c.queue ++ [⟨path, hookIndex⟩], flushRequested := true }
    else c
  { c with
    heap := heapSet c.heap r (listSetExtend arr hookIndex (.effectHook deps cleanup effectId)),
    cursor := alistSet c.cursor path (hookIndex + 1),
    visited := addVisited c.visited path }

/-- The cleanup references of the Effect-kind records of one hooks
array, in array order (`hooks.forEach(... hook.cleanup?.())`). -/
def cleanupHooksList : List Hook → List Nat
  | [] => []
  | .effectHook _ (some cl) _ :: rest => cl :: cleanupHooksList rest
  | _ :: rest => cleanupHooksList rest

/-- The `for (const [path, hooks] of state.entries())` loop of
`cleanupUnusedHooks`, iterating over a snapshot of the entries. -/
def cleanupLoop (visited : List String) :
    List (String × Nat) → HCtx → HCtx
  | [], c => c
  | (path, r) :: rest, c =>
    if visited.contains path then cleanupLoop visited rest c
    else
      cleanupLoop visited rest
        { c with
          cleanupLog := c.cleanupLog ++ cleanupHooksList (heapGet c.heap r),
          state := alistDel c.state path,
          cursor := alistDel c.cursor path }

/-- `cleanupUnusedHooks` from `hooks.ts`: tears down every hook-storage
path not visited this pass (cleanups invoked, storage and cursor
deleted), clears the visited set, and drops queued effect entries whose
path no longer has live storage. -/
def cleanupUnusedHooks (c : HCtx) : HCtx :=
  let c := cleanupLoop c.visited c.state c
  let c := { c with visited := [] }
  { c with queue := c.queue.filter fun e => alistHas c.state e.path }

/-! ## Claim C3: the `useState` setter -/

theorem heapGet_heapSet_self (h : List (Nat × List Hook)) (r : Nat) (v : List Hook) :
    heapGet (heapSet h r v) r = v := by
  induction h with
  | nil => simp [heapSet, heapGet]
  | cons e rest ih =>
    by_cases he : e.1 = r
    · simp [heapSet, he, heapGet]
    · simpa [heapSet, he, heapGet, List.find?, show (e.1 == r) = false by simpa using he]
        using ih

/-- The no-op half of the setter: an `Object.is`-equal resolved value
changes nothing. -/
theorem setState_skip (c : HCtx) (r idx : Nat) (next : NextValue)
    (h : objectIs (readHookValue c r idx) (resolveNext next (readHookValue c r idx)) = true) :
    setState r idx next c = c := by
  unfold setState
  simp only [readHookValue] at h
  rw [if_pos h]

/-- The mutating half of the setter: a non-equal resolved value is
stored in place and a render is requested. -/
theorem setState_run (c : HCtx) (r idx : Nat) (next : NextValue)
    (h : objectIs (readHookValue c r idx) (resolveNext next (readHookValue c r idx)) = false) :
    setState r idx next c =
      { c with
        heap := heapSet c.heap r
          ((heapGet c.heap r).set idx
            (.stateHook (resolveNext next (readHookValue c r idx)))),
        renderRequested := true } := by
  unfold setState
  simp only [readHookValue] at h
  rw [if_neg (by rw [h]; simp)]
  rfl

/-- Claim C3: resolving the setter argument against the stored value,
an `Object.is`-equal result leaves the context (storage and scheduler)
unchanged; a different result stores the resolved value at the same
slot, requests a render, and the next `useState` read at that slot
returns the new value. -/
theorem c3_useState_setter (c : HCtx) (r idx : Nat) (next : NextValue) :
    (objectIs (readHookValue c r idx) (resolveNext next (readHookValue c r idx)) = true →
      setState r idx next c = c) ∧
    (objectIs (readHookValue c r idx) (resolveNext next (readHookValue c r idx)) = false →
      setState r idx next c =
        { c with
          heap := heapSet c.heap r
            ((heapGet c.heap r).set idx
              (.stateHook (resolveNext next (readHookValue c r idx)))),
          renderRequested := true } ∧
      ∀ (path : String) (init : StateInit),
        alistGet c.state path = some r →
        idx < (heapGet c.heap r).length →
        (useState path idx init (setState r idx next c)).1 =
          resolveNext next (readHookValue c r idx)) := by
  constructor
  · exact setState_skip c r idx next
  · intro h
    refine ⟨setState_run c r idx next h, ?_⟩
    intro path init hpath hlen
    rw [setState_run c r idx next h]
    unfold useState ensurePathArray
    simp only [hpath, heapGet_heapSet_self]
    rw [if_neg (by simp [hlen])]
    simp only []
    rw [List.get?_eq_getElem?, List.getElem?_set_eq_of_lt _ hlen]
    rfl

/-- Witness for C3 at a concrete slot. -/
theorem c3_useState_setter_witness :
    (setState 0 0 (.value (.jnum 2))
        ⟨[("p", 0)], [(0, [.stateHook (.jnum 1)])], 1, [], [], [], [], false, false⟩ =
      { (⟨[("p", 0)], [(0, [.stateHook (.jnum 1)])], 1, [], [], [], [], false, false⟩ : HCtx) with
        heap := heapSet [(0, [.stateHook (.jnum 1)])] 0
          ([Hook.stateHook (.jnum 1)].set 0 (.stateHook (.jnum 2))),
        renderRequested := true }) ∧
    (useState "p" 0 (.value .jnull)
        (setState 0 0 (.value (.jnum 2))
          ⟨[("p", 0)], [(0, [.stateHook (.jnum 1)])], 1, [], [], [], [], false, false⟩)).1 =
      JsVal.jnum 2 := by
  have h := (c3_useState_setter
    ⟨[("p", 0)], [(0, [.stateHook (.jnum 1)])], 1, [], [], [], [], false, false⟩
    0 0 (.value (.jnum 2))).2 (by rfl)
  refine ⟨?_, ?_⟩
  · have h1 := h.1
    simpa [heapGet, readHookValue, hookValue, resolveNext] using h1
  · have h2 := h.2 "p" (.value .jnull) (by rfl) (by simp [heapGet])
    simpa [readHookValue, heapGet, hookValue, resolveNext] using h2

/-! ## Claim C4: the `useEffect` dependency law -/

/-- The hook record stored at `(path, idx)` in the hook store (what
`useEffect` sees as `prevHook`). -/
def hookAt (c : HCtx) (path : String) (idx : Nat) : Option Hook :=
  match alistGet c.state path with
  | some r => (heapGet c.heap r).get? idx
  | none => none

/-- `useEffect`'s `shouldRun` condition:
`!deps || !prevHook || !prevDeps || !shallowEquals(prevDeps, deps)`. -/
def effectShouldRun (c : HCtx) (path : String) (idx : Nat) (deps : Option JsVal) : Bool :=
  let prevHook := hookAt c path idx
  let prevDeps := hookDeps prevHook
  deps.isNone || prevHook.isNone || prevDeps.isNone ||
    !(shallowEquals (prevDeps.getD .jundef) (deps.getD .jundef))

theorem ensurePathArray_prevHook (c : HCtx) (path : String) (idx : Nat) :
    (heapGet (ensurePathArray path c).2.heap (ensurePathArray path c).1).get? idx =
      hookAt c path idx := by
  unfold ensurePathArray hookAt
  cases h : alistGet c.state path with
  | some r => simp [h]
  | none => simp [h, heapGet_heapSet_self]

/-- `useEffect`, re-expressed through `hookAt` / `effectShouldRun`. -/
theorem useEffect_eq (c : HCtx) (path : String) (idx effectId : Nat) (deps : Option JsVal) :
    useEffect path idx effectId deps c =
      (let c1 := (ensurePathArray path c).2
       let r := (ensurePathArray path c).1
       let cleanup := hookCleanup (hookAt c path idx)
       let c2 :=
         if effectShouldRun c path idx deps then
           { c1 with
             cleanupLog := c1.cleanupLog ++ cleanup.toList,
             queue := c1.queue ++ [⟨path, idx⟩],
             flushRequested := true }
         else c1
       { c2 with
         heap := heapSet c2.heap r
           (listSetExtend (heapGet c1.heap r) idx (.effectHook deps cleanup effectId)),
         cursor := alistSet c2.cursor path (idx + 1),
         visited := addVisited c2.visited path }) := by
  unfold useEffect effectShouldRun
  simp only [ensurePathArray_prevHook]
  cases hcl : hookCleanup (hookAt c path idx) with
  | none =>
    cases hsr : (deps.isNone || (hookAt c path idx).isNone ||
        (hookDeps (hookAt c path idx)).isNone ||
        !(shallowEquals ((hookDeps (hookAt c path idx)).getD .jundef)
          (deps.getD .jundef))) <;>
      simp [hcl, hsr]
  | some cl =>
    cases hsr : (deps.isNone || (hookAt c path idx).isNone ||
        (hookDeps (hookAt c path idx)).isNone ||
        !(shallowEquals ((hookDeps (hookAt c path idx)).getD .jundef)
          (deps.getD .jundef))) <;>
      simp [hcl, hsr]

/-- Element-wise `Object.is` equality of same-length arrays makes
`shallowEquals` succeed. -/
theorem shallowEquals_arr_of_pointwise (i j : Nat) (xs ys : List JsVal)
    (hlen : ys.length = xs.length)
    (hpt : ((ys.zip xs).all fun p => objectIs p.1 p.2) = true) :
    shallowEquals (.jarr j ys) (.jarr i xs) = true := by
  unfold shallowEquals
  by_cases hid : objectIs (.jarr j ys) (.jarr i xs) = true
  · rw [if_pos hid]
  · rw [if_neg hid]
    simp [typeofJs, isNullJs, isArrayJs, arrElems, hlen, hpt]

/-- Claim C4: with a deps array whose length and elements
(`Object.is`-wise) match the previously stored non-null deps, the
effect is not enqueued and the previous cleanup is not invoked; in
every other case — deps absent, no previous hook record, previous deps
`null`, or the shallow comparison failing — the previous cleanup (if
any) is invoked and a `(path, cursor)` entry is appended to the effect
queue, with the asynchronous flush requested. -/
theorem c4_useEffect_deps (c : HCtx) (path : String) (idx effectId : Nat)
    (deps : Option JsVal) :
    (∀ (i xs : _) (j : Nat) (ys : List JsVal) (cl : Option Nat) (eid : Nat),
      deps = some (.jarr i xs) →
      hookAt c path idx = some (.effectHook (some (.jarr j ys)) cl eid) →
      ys.length = xs.length →
      ((ys.zip xs).all fun p => objectIs p.1 p.2) = true →
      (useEffect path idx effectId deps c).queue = c.queue ∧
        (useEffect path idx effectId deps c).cleanupLog = c.cleanupLog) ∧
    (effectShouldRun c path idx deps = true →
      (useEffect path idx effectId deps c).queue = c.queue ++ [⟨path, idx⟩] ∧
        (useEffect path idx effectId deps c).cleanupLog =
          c.cleanupLog ++ (hookCleanup (hookAt c path idx)).toList ∧
        (useEffect path idx effectId deps c).flushRequested = true) ∧
    (deps = none → effectShouldRun c path idx deps = true) ∧
    (hookAt c path idx = none → effectShouldRun c path idx deps = true) ∧
    (hookDeps (hookAt c path idx) = none → effectShouldRun c path idx deps = true) ∧
    (∀ pd dv, hookDeps (hookAt c path idx) = some pd → deps = some dv →
      shallowEquals pd dv = false → effectShouldRun c path idx deps = true) := by
  have hens : (ensurePathArray path c).2.queue = c.queue ∧
      (ensurePathArray path c).2.cleanupLog = c.cleanupLog := by
    unfold ensurePathArray
    cases h : alistGet c.state path <;> simp [h]
  refine ⟨?_, ?_, ?_, ?_, ?_, ?_⟩
  · intro i xs j ys cl eid hdeps hprev hlen hpt
    have hsr : effectShouldRun c path idx deps = false := by
      unfold effectShouldRun
      simp only [hdeps, hprev, hookDeps]
      simp [shallowEquals_arr_of_pointwise i j xs ys hlen hpt]
    rw [useEffect_eq]
    simp [hsr, hens.1, hens.2]
  · intro hsr
    rw [useEffect_eq]
    simp [hsr, hens.1, hens.2]
  · intro h
    unfold effectShouldRun
    simp [h]
  · intro h
    unfold effectShouldRun
    simp [h]
  · intro h
    unfold effectShouldRun
    simp [h]
  · intro pd dv hpd hdv hse
    unfold effectShouldRun
    simp [hpd, hdv, hse]

/-- Witness for C4: a concrete skip (same deps) and a concrete run
(changed deps) at one slot. -/
theorem c4_useEffect_deps_witness :
    ((useEffect "p" 0 7 (some (.jarr 2 [.jnum 1]))
        ⟨[("p", 0)], [(0, [.effectHook (some (.jarr 1 [.jnum 1])) (some 5) 6])], 1,
          [], [], [], [], false, false⟩).queue = [] ∧
      (useEffect "p" 0 7 (some (.jarr 2 [.jnum 1]))
        ⟨[("p", 0)], [(0, [.effectHook (some (.jarr 1 [.jnum 1])) (some 5) 6])], 1,
          [], [], [], [], false, false⟩).cleanupLog = []) ∧
    ((useEffect "p" 0 7 (some (.jarr 2 [.jnum 9]))
        ⟨[("p", 0)], [(0, [.effectHook (some (.jarr 1 [.jnum 1])) (some 5) 6])], 1,
          [], [], [], [], false, false⟩).queue = [⟨"p", 0⟩] ∧
      (useEffect "p" 0 7 (some (.jarr 2 [.jnum 9]))
        ⟨[("p", 0)], [(0, [.effectHook (some (.jarr 1 [.jnum 1])) (some 5) 6])], 1,
          [], [], [], [], false, false⟩).cleanupLog = [5]) := by
  constructor
  · have h := (c4_useEffect_deps
      ⟨[("p", 0)], [(0, [.effectHook (some (.jarr 1 [.jnum 1])) (some 5) 6])], 1,
        [], [], [], [], false, false⟩ "p" 0 7 (some (.jarr 2 [.jnum 1]))).1
      2 [.jnum 1] 1 [.jnum 1] (some 5) 6 rfl (by rfl) rfl (by rfl)
    exact h
  · have h := (c4_useEffect_deps
      ⟨[("p", 0)], [(0, [.effectHook (some (.jarr 1 [.jnum 1])) (some 5) 6])], 1,
        [], [], [], [], false, false⟩ "p" 0 7 (some (.jarr 2 [.jnum 9]))).2.1
      (by rfl)
    exact ⟨h.1, h.2.1⟩

/-! ## Claim C5: `cleanupUnusedHooks` tears down unvisited paths -/

theorem cleanupLoop_cons_visited (visited : List String) (p : String) (r : Nat)
    (rest : List (String × Nat)) (c : HCtx) (hv : visited.contains p = true) :
    cleanupLoop visited ((p, r) :: rest) c = cleanupLoop visited rest c := by
  rw [cleanupLoop]
  simp [show p ∈ visited from by simpa using hv]

theorem cleanupLoop_cons_unvisited (visited : List String) (p : String) (r : Nat)
    (rest : List (String × Nat)) (c : HCtx) (hv : visited.contains p = false) :
    cleanupLoop visited ((p, r) :: rest) c =
      cleanupLoop visited rest
        { c with
          cleanupLog := c.cleanupLog ++ cleanupHooksList (heapGet c.heap r),
          state := alistDel c.state p,
          cursor := alistDel c.cursor p } := by
  rw [cleanupLoop]
  simp [show p ∉ visited from by simpa using hv]

/-- Deleting one key and then filtering out the remaining deleted keys
is filtering out all of them. -/
theorem alistDel_filter {α : Type} (l : List (String × α)) (p : String)
    (ps : List String) :
    ((alistDel l p).filter fun e => !ps.contains e.1) =
      l.filter fun e => !(p :: ps).contains e.1 := by
  unfold alistDel
  rw [List.filter_filter]
  apply List.filter_congr
  intro e _
  by_cases he : e.1 = p <;> simp [he, bne]

/-- Closed form of the `cleanupUnusedHooks` entry loop. -/
theorem cleanupLoop_spec (visited : List String) :
    ∀ (entries : List (String × Nat)) (c : HCtx),
      cleanupLoop visited entries c =
        { c with
          cleanupLog := c.cleanupLog ++
            ((entries.filter fun e => !visited.contains e.1).flatMap
              fun e => cleanupHooksList (heapGet c.heap e.2)),
          state := c.state.filter fun e =>
            !(((entries.filter fun e2 => !visited.contains e2.1).map Prod.fst).contains e.1),
          cursor := c.cursor.filter fun e =>
            !(((entries.filter fun e2 => !visited.contains e2.1).map Prod.fst).contains e.1) }
  | [], c => by simp [cleanupLoop]
  | (p, r) :: rest, c => by
    cases hv : visited.contains p with
    | true =>
      rw [cleanupLoop_cons_visited visited p r rest c hv]
      rw [cleanupLoop_spec visited rest c]
      have hf : ((p, r) :: rest).filter (fun e2 => !visited.contains e2.1) =
          rest.filter fun e2 => !visited.contains e2.1 := by
        rw [List.filter_cons]
        simp [show p ∈ visited from by simpa using hv]
      rw [hf]
    | false =>
      rw [cleanupLoop_cons_unvisited visited p r rest c hv]
      rw [cleanupLoop_spec visited rest _]
      have hf : ((p, r) :: rest).filter (fun e2 => !visited.contains e2.1) =
          (p, r) :: rest.filter fun e2 => !visited.contains e2.1 := by
        rw [List.filter_cons]
        simp [show p ∉ visited from by simpa using hv]
      rw [hf]
      simp only [List.flatMap_cons, List.map_cons]
      rw [alistDel_filter c.state p, alistDel_filter c.cursor p, List.append_assoc]

/-- For entries of the state map itself, "no deleted entry carries my
key" is the same as "my key was visited". -/
theorem state_filter_visited (c : HCtx) :
    (c.state.filter fun e =>
      !(((c.state.filter fun e2 => !c.visited.contains e2.1).map Prod.fst).contains e.1)) =
      c.state.filter fun e => c.visited.contains e.1 := by
  apply List.filter_congr
  intro e he
  by_cases hm : e.1 ∈ c.visited
  · have h1 : e.1 ∉ (c.state.filter fun e2 => !c.visited.contains e2.1).map Prod.fst := by
      intro hmem
      obtain ⟨e2, he2, hfst⟩ := List.mem_map.mp hmem
      have h3 := (List.mem_filter.mp he2).2
      rw [hfst] at h3
      simp [hm] at h3
    simp [hm, h1]
  · have h1 : e.1 ∈ (c.state.filter fun e2 => !c.visited.contains e2.1).map Prod.fst :=
      List.mem_map.mpr ⟨e, List.mem_filter.mpr ⟨he, by simp [hm]⟩, rfl⟩
    simp [hm, h1]
    exact ⟨e.2, by simpa using he⟩

/-- Closed form of `cleanupUnusedHooks`: cleanups of every effect
record at unvisited paths run (in storage order, each once), unvisited
paths lose their storage and cursor, visited paths keep theirs, the
visited set is cleared, and queue entries without live storage are
dropped.  The heap (the array objects themselves) is untouched. -/
theorem cleanupUnusedHooks_eq (c : HCtx) :
    cleanupUnusedHooks c =
      { c with
        cleanupLog := c.cleanupLog ++
          ((c.state.filter fun e => !c.visited.contains e.1).flatMap
            fun e => cleanupHooksList (heapGet c.heap e.2)),
        state := c.state.filter fun e => c.visited.contains e.1,
        cursor := c.cursor.filter fun e =>
          !(((c.state.filter fun e2 => !c.visited.contains e2.1).map Prod.fst).contains e.1),
        visited := [],
        queue := c.queue.filter fun e =>
          alistHas (c.state.filter fun e2 => c.visited.contains e2.1) e.path } := by
  unfold cleanupUnusedHooks
  rw [cleanupLoop_spec c.visited c.state c]
  simp only [state_filter_visited]

/-- Claim C5: when a render pass completes, `cleanupUnusedHooks`
invokes (exactly once, in storage order) the stored cleanup of every
Effect-kind record at every unvisited path, deletes those paths'
storage and cursors, keeps visited paths' storage untouched, clears the
visited set, and drops queued effect entries whose path no longer has
live storage. -/
theorem c5_cleanup_unused_hooks (c : HCtx) :
    cleanupUnusedHooks c =
      { c with
        cleanupLog := c.cleanupLog ++
          ((c.state.filter fun e => !c.visited.contains e.1).flatMap
            fun e => cleanupHooksList (heapGet c.heap e.2)),
        state := c.state.filter fun e => c.visited.contains e.1,
        cursor := c.cursor.filter fun e =>
          !(((c.state.filter fun e2 => !c.visited.contains e2.1).map Prod.fst).contains e.1),
        visited := [],
        queue := c.queue.filter fun e =>
          alistHas (c.state.filter fun e2 => c.visited.contains e2.1) e.path } :=
  cleanupUnusedHooks_eq c

/-! ## Claim C10: setters outlive their component's storage -/

theorem alistGet_filter_eq_none {α : Type} (l : List (String × α)) (path : String)
    (p : String × α → Bool) (h : ∀ e ∈ l, e.1 = path → p e = false) :
    alistGet (l.filter p) path = none := by
  induction l with
  | nil => rfl
  | cons e rest ih =>
    rw [List.filter_cons]
    by_cases hp : p e = true
    · rw [if_pos hp]
      unfold alistGet
      rw [List.find?_cons]
      have hne : (e.1 == path) = false := by
        cases hbe : (e.1 == path)
        · rfl
        · exact absurd (h e (by simp) (by simpa using hbe)) (by simp [hp])
      rw [hne]
      exact ih fun e' he' => h e' (by simp [he'])
    · rw [if_neg hp]
      exact ih fun e' he' => h e' (by simp [he'])

/-- Claim C10: after `cleanupUnusedHooks` has deleted an unvisited
path's storage, a setter captured earlier for that path still holds the
detached hooks array: the store no longer maps the path, the array
itself survives, and invoking the setter with a non-`Object.is`-equal
resolved value still writes into the detached array and still requests
a render — no liveness check is performed. -/
theorem c10_setter_after_unmount (c : HCtx) (path : String) (r idx : Nat)
    (next : NextValue)
    (hr : alistGet c.state path = some r)
    (hv : c.visited.contains path = false) :
    alistGet (cleanupUnusedHooks c).state path = none ∧
    (cleanupUnusedHooks c).heap = c.heap ∧
    (objectIs (readHookValue c r idx) (resolveNext next (readHookValue c r idx)) = false →
      setState r idx next (cleanupUnusedHooks c) =
        { cleanupUnusedHooks c with
          heap := heapSet c.heap r
            ((heapGet c.heap r).set idx
              (.stateHook (resolveNext next (readHookValue c r idx)))),
          renderRequested := true }) := by
  have hheap : (cleanupUnusedHooks c).heap = c.heap := by
    rw [cleanupUnusedHooks_eq]
  have hread : readHookValue (cleanupUnusedHooks c) r idx = readHookValue c r idx := by
    unfold readHookValue
    rw [hheap]
  refine ⟨?_, hheap, ?_⟩
  · rw [cleanupUnusedHooks_eq]
    exact alistGet_filter_eq_none _ _ _ fun e _ he => by rw [he]; exact hv
  · intro hne
    have := setState_run (cleanupUnusedHooks c) r idx next (by rw [hread]; exact hne)
    rw [this, hread, hheap]

/-- Witness for C10 at a concrete unmounted path. -/
theorem c10_setter_after_unmount_witness :
    alistGet (cleanupUnusedHooks
      ⟨[("p", 0)], [(0, [.stateHook (.jnum 1)])], 1, [("p", 0)], [], [], [], false, false⟩).state
      "p" = none ∧
    setState 0 0 (.value (.jnum 2))
      (cleanupUnusedHooks
        ⟨[("p", 0)], [(0, [.stateHook (.jnum 1)])], 1, [("p", 0)], [], [], [], false, false⟩) =
      { cleanupUnusedHooks
          ⟨[("p", 0)], [(0, [.stateHook (.jnum 1)])], 1, [("p", 0)], [], [], [], false, false⟩ with
        heap := heapSet [(0, [.stateHook (.jnum 1)])] 0
          ([Hook.stateHook (.jnum 1)].set 0 (.stateHook (.jnum 2))),
        renderRequested := true } := by
  have h := c10_setter_after_unmount
    ⟨[("p", 0)], [(0, [.stateHook (.jnum 1)])], 1, [("p", 0)], [], [], [], false, false⟩
    "p" 0 0 (.value (.jnum 2)) (by rfl) (by rfl)
  refine ⟨h.1, ?_⟩
  have h3 := h.2.2 (by rfl)
  simpa [readHookValue, heapGet, hookValue, resolveNext] using h3

/-! ## The instance tree and the host surface

`Instance` mirrors `types.ts`' instance records: a reference identity
(`id`, standing for the JS object identity — mount allocates a fresh
one, update keeps it), the kind, the owned surface node, the last
reconciled VNode, the child instances, the key and the path.

The DOM is a store of nodes (`doc`): elements carry their tag and the
ordered list of child node ids; text nodes carry their value.  Every
host-renderer call is appended to `log`. -/

/-- Modelled from the spec: the `NodeTypes` constants of the absent
`constants.ts`. -/
inductive NodeKind : Type where
  | textK
  | fragmentK
  | componentK
  | hostK
  deriving DecidableEq, Repr

inductive Instance : Type where
  | mk (id : Nat) (kind : NodeKind) (dom : Option Nat) (node : VNode)
       (children : List (Option Instance)) (key : Option String) (path : String)

def Instance.id : Instance → Nat
  | .mk i _ _ _ _ _ _ => i

def Instance.kind : Instance → NodeKind
  | .mk _ k _ _ _ _ _ => k

def Instance.dom : Instance → Option Nat
  | .mk _ _ d _ _ _ _ => d

def Instance.node : Instance → VNode
  | .mk _ _ _ n _ _ _ => n

def Instance.children : Instance → List (Option Instance)
  | .mk _ _ _ _ cs _ _ => cs

def Instance.key : Instance → Option String
  | .mk _ _ _ _ _ k _ => k

def Instance.path : Instance → String
  | .mk _ _ _ _ _ _ p => p

/-- A surface node: a host element (tag and ordered children ids) or a
text node. -/
inductive DomNode : Type where
  | elem (tag : String) (children : List Nat)
  | textNode (value : String)
  deriving DecidableEq, Repr

/-- One host-renderer mutation call. -/
inductive DomOp : Type where
  | createEl (id : Nat) (tag : String)
  | createText (id : Nat) (value : String)
  | appendChild (p c : Nat)
  | insertBefore (p c a : Nat)
  | removeChild (p c : Nat)
  | setProp (n : Nat) (k : String)
  | setAttr (n : Nat) (k : String)
  | removeAttr (n : Nat) (k : String)
  | addListener (n : Nat) (e : String)
  | removeListener (n : Nat) (e : String)
  | setStyle (n : Nat) (k : String)
  | setNodeValue (n : Nat) (v : String)
  | setClassName (n : Nat)
  deriving DecidableEq, Repr

/-- The reconciler-side global state: the surface store, id allocators,
the host-call log, and the hook-context bookkeeping the reconciler
performs (`componentStack` / `cursor` / `visited` of `context.hooks`;
the hook arrays themselves are modelled separately in `HCtx`). -/
structure RState where
  doc : List (Nat × DomNode)
  nextDom : Nat
  nextInst : Nat
  log : List DomOp
  componentStack : List String
  cursorR : List (String × Nat)
  visitedR : List String

def docGet (doc : List (Nat × DomNode)) (n : Nat) : Option DomNode :=
  (doc.find? fun e => e.1 == n).map fun e => e.2

def docSet : List (Nat × DomNode) → Nat → DomNode → List (Nat × DomNode)
  | [], n, d => [(n, d)]
  | e :: rest, n, d => if e.1 = n then (n, d) :: rest else e :: docSet rest n d

/-- The ordered child ids of an element node. -/
def childrenOf (doc : List (Nat × DomNode)) (n : Nat) : List Nat :=
  match docGet doc n with
  | some (.elem _ cs) => cs
  | _ => []

/-- `node.parentNode`: the unique element whose children contain `n`
(first match in store order). -/
def parentOf (doc : List (Nat × DomNode)) (n : Nat) : Option Nat :=
  (doc.find? fun e =>
    match e.2 with
    | .elem _ cs => cs.contains n
    | .textNode _ => false).map fun e => e.1

/-- The element following `n` in a child list. -/
def listNextAfter : List Nat → Nat → Option Nat
  | [], _ => none
  | x :: rest, n => if x = n then rest.head? else listNextAfter rest n

/-- `node.nextSibling` of `n` viewed under parent `p`. -/
def nextSiblingOf (doc : List (Nat × DomNode)) (p n : Nat) : Option Nat :=
  listNextAfter (childrenOf doc p) n

/-- Detach a node from whatever parent holds it (the implicit move of
`appendChild` / `insertBefore`). -/
def detachNode (doc : List (Nat × DomNode)) (c : Nat) : List (Nat × DomNode) :=
  doc.map fun e =>
    match e.2 with
    | .elem t cs => (e.1, DomNode.elem t (cs.filter fun x => x ≠ c))
    | .textNode _ => e

/-- Replace the child list of element `p`. -/
def setChildren (doc : List (Nat × DomNode)) (p : Nat) (cs : List Nat) :
    List (Nat × DomNode) :=
  match docGet doc p with
  | some (.elem t _) => docSet doc p (.elem t cs)
  | _ => doc

/-- `parent.appendChild(node)`. -/
def domAppendChild (p c : Nat) (st : RState) : RState :=
  let doc := detachNode st.doc c
  let doc := setChildren doc p (childrenOf doc p ++ [c])
  { st with doc := doc, log := st.log ++ [.appendChild p c] }

/-- Insert `c` immediately before the first occurrence of `a` (at the
end if `a` is absent). -/
def insertBeforeIn : List Nat → Nat → Nat → List Nat
  | [], c, _ => [c]
  | x :: rest, c, a => if x = a then c :: x :: rest else x :: insertBeforeIn rest c a

/-- `parent.insertBefore(node, anchor)`. -/
def domInsertBefore (p c a : Nat) (st : RState) : RState :=
  let doc := detachNode st.doc c
  let doc := setChildren doc p (insertBeforeIn (childrenOf doc p) c a)
  { st with doc := doc, log := st.log ++ [.insertBefore p c a] }

/-- `parent.removeChild(node)`. -/
def domRemoveChild (p c : Nat) (st : RState) : RState :=
  { st with
    doc := setChildren st.doc p ((childrenOf st.doc p).filter fun x => x ≠ c),
    log := st.log ++ [.removeChild p c] }

/-- `dom.nodeValue = v` on a text node. -/
def domSetNodeValue (n : Nat) (v : String) (st : RState) : RState :=
  let doc :=
    match docGet st.doc n with
    | some (.textNode _) => docSet st.doc n (.textNode v)
    | _ => st.doc
  { st with doc := doc, log := st.log ++ [.setNodeValue n v] }

def textValueOf (doc : List (Nat × DomNode)) (n : Nat) : Option String :=
  match docGet doc n with
  | some (.textNode v) => some v
  | _ => none

/-! ### `getDomNodes` / `getFirstDom` (from `src/unnamed/part_000`) -/

mutual

/-- The surface nodes an instance owns: host/text instances report
their own node; fragment/component instances flatten their children's. -/
def getDomNodes : Instance → List Nat
  | .mk _ kind dom _ children _ _ =>
    if kind = .hostK ∨ kind = .textK then
      match dom with
      | some d => [d]
      | none => []
    else getDomNodesL children

def getDomNodesL : List (Option Instance) → List Nat
  | [] => []
  | none :: rest => getDomNodesL rest
  | some i :: rest => getDomNodes i ++ getDomNodesL rest

end

mutual

/-- The first surface node of an instance. -/
def getFirstDom : Instance → Option Nat
  | .mk _ kind dom _ children _ _ =>
    if (kind = .hostK ∨ kind = .textK) ∧ dom.isSome then dom
    else getFirstDomL children

def getFirstDomL : List (Option Instance) → Option Nat
  | [] => none
  | none :: rest => getFirstDomL rest
  | some i :: rest =>
    match getFirstDom i with
    | some d => some d
    | none => getFirstDomL rest

end

def getFirstDomO : Option Instance → Option Nat
  | none => none
  | some i => getFirstDom i

/-- `getFirstDomFromChildren`. -/
def getFirstDomFromChildren (children : List (Option Instance)) : Option Nat :=
  getFirstDomL children

/-! ### `insertInstance` / `removeInstance` (from `src/unnamed/part_000`) -/

/-- The per-node loop of `insertInstance`: a node already sitting under
the parent directly before the anchor (at the end for a null anchor) is
skipped; otherwise it is inserted before the anchor or appended. -/
def insertNodes (p : Nat) (anchor : Option Nat) : List Nat → RState → RState
  | [], st => st
  | n :: rest, st =>
    let st' :=
      if parentOf st.doc n = some p ∧ nextSiblingOf st.doc p n = anchor then st
      else
        match anchor with
        | some a => domInsertBefore p n a st
        | none => domAppendChild p n st
    insertNodes p anchor rest st'

def insertInstance (p : Nat) (inst : Option Instance) (anchor : Option Nat)
    (st : RState) : RState :=
  match inst with
  | none => st
  | some i => insertNodes p anchor (getDomNodes i) st

/-- The per-node loop of `removeInstance`: removes each owned node that
is currently a child of `parentDom`. -/
def removeNodes (p : Nat) : List Nat → RState → RState
  | [], st => st
  | n :: rest, st =>
    let st' := if parentOf st.doc n = some p then domRemoveChild p n st else st
    removeNodes p rest st'

def removeInstance (p : Nat) (inst : Option Instance) (st : RState) : RState :=
  match inst with
  | none => st
  | some i => removeNodes p (getDomNodes i) st

/-! ### `setDomProps` / `updateDomProps` (from `src/unnamed/part_000`)

The `key in dom` test (does the host element expose the prop as a
settable property) depends on the host environment; it is threaded as
the predicate `native`.  The reserved `children` and `style` keys never
appear among `fields` (the embedding stores them separately, matching
the loops, which always skip them). -/

def isFnProp : PropVal → Bool
  | .pfn _ => true
  | _ => false

def isNullishProp : PropVal → Bool
  | .pnull => true
  | .pundef => true
  | _ => false

def isBoolProp : PropVal → Bool
  | .pbool _ => true
  | _ => false

def boolPropVal : PropVal → Bool
  | .pbool b => b
  | _ => false

/-- `key.startsWith(prefixStr)` (spelled out structurally over the
character list). -/
def strStartsWith (s pre : String) : Bool :=
  pre.data.isPrefixOf s.data

/-- `key.slice(2).toLowerCase()` (spelled out structurally over the
character list). -/
def eventNameOf (k : String) : String :=
  String.mk ((k.data.drop 2).map Char.toLower)

/-- `prevProps[key]` (`undefined` when absent). -/
def lookupProp (fields : List (String × PropVal)) (k : String) : PropVal :=
  match (fields.find? fun e => e.1 == k).map (fun e => e.2) with
  | some v => v
  | none => .pundef

def hasProp (fields : List (String × PropVal)) (k : String) : Bool :=
  fields.any fun e => e.1 == k

/-- One entry of the `setDomProps` loop. -/
def setDomProp (native : String → Bool) (dom : Nat) (k : String) (v : PropVal)
    (st : RState) : RState :=
  if strStartsWith k "on" ∧ isFnProp v then
    { st with log := st.log ++ [.addListener dom (eventNameOf k)] }
  else if k = "className" then
    { st with log := st.log ++ [.setClassName dom] }
  else if strStartsWith k "data-" then
    if isNullishProp v then st
    else { st with log := st.log ++ [.setAttr dom k] }
  else if isBoolProp v then
    if native k then { st with log := st.log ++ [.setProp dom k] }
    else if boolPropVal v then { st with log := st.log ++ [.setAttr dom k] }
    else st
  else if isNullishProp v then st
  else if native k then { st with log := st.log ++ [.setProp dom k] }
  else { st with log := st.log ++ [.setAttr dom k] }

/-- `setDomProps`: applies every generic prop, then the style object
(each style entry is one style assignment). -/
def setDomProps (native : String → Bool) (dom : Nat)
    (fields : List (String × PropVal)) (style : Option (List (String × StyleVal)))
    (st : RState) : RState :=
  let st := fields.foldl (fun st kv => setDomProp native dom kv.1 kv.2 st) st
  match style with
  | some sts => sts.foldl (fun st sv => { st with log := st.log ++ [.setStyle dom sv.1] }) st
  | none => st

/-- One entry of `updateDomProps`' removed-or-changed loop. -/
def updatePrevProp (native : String → Bool) (dom : Nat)
    (nextFields : List (String × PropVal)) (k : String) (pv : PropVal)
    (st : RState) : RState :=
  let hasNext := hasProp nextFields k
  let nv := lookupProp nextFields k
  let isUnchanged := hasNext ∧ nv = pv
  if isUnchanged then st
  else if strStartsWith k "on" ∧ isFnProp pv then
    { st with log := st.log ++ [.removeListener dom (eventNameOf k)] }
  else if k = "className" then
    { st with log := st.log ++ [.setClassName dom] }
  else if strStartsWith k "data-" then
    if ¬hasNext ∨ isNullishProp nv then { st with log := st.log ++ [.removeAttr dom k] }
    else st
  else if ¬hasNext ∧ isBoolProp pv then
    if native k then { st with log := st.log ++ [.setProp dom k, .removeAttr dom k] }
    else { st with log := st.log ++ [.removeAttr dom k] }
  else if ¬hasNext then
    if native k then { st with log := st.log ++ [.setProp dom k, .removeAttr dom k] }
    else { st with log := st.log ++ [.removeAttr dom k] }
  else st

/-- Style diffing: the union of style keys, first-occurrence order;
entries whose value changed are assigned. -/
def dedupKeys : List String → List String
  | [] => []
  | k :: rest => k :: (dedupKeys rest).filter fun x => x ≠ k

def lookupStyle (sts : List (String × StyleVal)) (k : String) : Option StyleVal :=
  (sts.find? fun e => e.1 == k).map fun e => e.2

def updateStyle (dom : Nat) (prevStyle nextStyle : List (String × StyleVal))
    (st : RState) : RState :=
  (dedupKeys (prevStyle.map Prod.fst ++ nextStyle.map Prod.fst)).foldl
    (fun st name =>
      if lookupStyle prevStyle name = lookupStyle nextStyle name then st
      else { st with log := st.log ++ [.setStyle dom name] })
    st

/-- One entry of `updateDomProps`' added-or-changed loop. -/
def updateNextProp (native : String → Bool) (dom : Nat)
    (prevFields : List (String × PropVal)) (k : String) (v : PropVal)
    (st : RState) : RState :=
  let prevValue := lookupProp prevFields k
  let isUnchanged := v = prevValue
  if strStartsWith k "on" ∧ isFnProp v then
    if isFnProp prevValue ∧ prevValue ≠ v then
      { st with log := st.log ++ [.removeListener dom (eventNameOf k), .addListener dom (eventNameOf k)] }
    else { st with log := st.log ++ [.addListener dom (eventNameOf k)] }
  else if strStartsWith k "on" ∧ isFnProp prevValue ∧ (isNullishProp v ∨ ¬isFnProp v) then
    { st with log := st.log ++ [.removeListener dom (eventNameOf k)] }
  else if k = "className" then
    if ¬isUnchanged then { st with log := st.log ++ [.setClassName dom] } else st
  else if strStartsWith k "data-" then
    if isNullishProp v then { st with log := st.log ++ [.removeAttr dom k] }
    else if ¬isUnchanged then { st with log := st.log ++ [.setAttr dom k] }
    else st
  else if isBoolProp v then
    if native k then
      if ¬isUnchanged then { st with log := st.log ++ [.setProp dom k] } else st
    else if boolPropVal v then { st with log := st.log ++ [.setAttr dom k] }
    else { st with log := st.log ++ [.removeAttr dom k] }
  else if isNullishProp v ∨ isUnchanged then st
  else if native k then { st with log := st.log ++ [.setProp dom k] }
  else { st with log := st.log ++ [.setAttr dom k] }

/-- `updateDomProps`: removed-or-changed pass over the previous props,
style diff, then added-or-changed pass over the next props. -/
def updateDomProps (native : String → Bool) (dom : Nat)
    (prevFields : List (String × PropVal)) (prevStyle : Option (List (String × StyleVal)))
    (nextFields : List (String × PropVal)) (nextStyle : Option (List (String × StyleVal)))
    (st : RState) : RState :=
  let st := prevFields.foldl (fun st kv => updatePrevProp native dom nextFields kv.1 kv.2 st) st
  let st := updateStyle dom (prevStyle.getD []) (nextStyle.getD []) st
  nextFields.foldl (fun st kv => updateNextProp native dom prevFields kv.1 kv.2 st) st

/-! ### The reconciler (from `src/packages/react/src/core/reconciler.ts`)

Component functions are modelled as pure VNode producers indexed by
their reference id (`compEval`; their hook interaction is modelled
separately by `HCtx`); `none` is a component returning `null`.  The
recursion is fuelled: a call that would recurse deeper than `fuel`
returns `none` (the JS engine's stack limit); every theorem about the
reconciler is conditional on the call having produced a result. -/

/-- The props bag a component function receives (`props ?? {}`). -/
structure PropsArg where
  fields : List (String × PropVal)
  style : Option (List (String × StyleVal))
  children : List VNode
  nodeValue : Option String

def VNode.propsArg (n : VNode) : PropsArg :=
  ⟨n.fields, n.style, n.children, n.nodeValue⟩

abbrev CompEval : Type := Nat → PropsArg → Option VNode

/-- Key-map and keyless-list partition of the old children (`Map.set`
last-wins on duplicate keys; keyless keep their order). -/
def partitionOld (l : List (Option Instance)) : List (String × Instance) × List Instance :=
  l.foldl
    (fun acc oc =>
      match oc with
      | none => acc
      | some i =>
        match i.key with
        | some k => (alistSet acc.1 k i, acc.2)
        | none => (acc.1, acc.2 ++ [i]))
    ([], [])

/-- First unused keyless old instance whose stored node type equals the
new child's type. -/
def findKeyless : List Instance → List Nat → NType → Option Instance
  | [], _, _ => none
  | m :: rest, used, ty =>
    if ¬(used.contains m.id) ∧ m.node.type = ty then some m
    else findKeyless rest used ty

/-- The unused-old-children removal loop. -/
def removeLoop (parentDom : Nat) : List (Option Instance) → List Nat → RState → RState
  | [], _, st => st
  | none :: rest, used, st => removeLoop parentDom rest used st
  | some i :: rest, used, st =>
    let st := if used.contains i.id then st else removeInstance parentDom (some i) st
    removeLoop parentDom rest used st

/-- The reverse-order insertion pass (the argument list is the reversed
new children). -/
def insertPassRev (parentDom : Nat) : List (Option Instance) → Option Nat → RState → RState
  | [], _, st => st
  | none :: rest, anchor, st => insertPassRev parentDom rest anchor st
  | some i :: rest, anchor, st =>
    match getFirstDom i with
    | none => insertPassRev parentDom rest anchor st
    | some fd =>
      let st := insertInstance parentDom (some i) anchor st
      insertPassRev parentDom rest (some fd) st


mutual

/-- `reconcile`: unmount / mount / replace / update dispatch. -/
def reconcile (native : String → Bool) (compEval : CompEval) (fuel : Nat)
    (parentDom : Nat) (inst? : Option Instance) (node? : Option VNode)
    (path : String) (st : RState) : Option (Option Instance × RState) :=
  match fuel with
  | 0 => none
  | fuel + 1 =>
    match node? with
    | none =>
      match inst? with
      | some inst => some (none, removeInstance parentDom (some inst) st)
      | none => some (none, st)
    | some node =>
      match inst? with
      | none =>
        match mountNode native compEval fuel parentDom node path st with
        | some (i2, st) => some (some i2, st)
        | none => none
      | some inst =>
        if inst.node.type ≠ node.type ∨ inst.key ≠ node.key then
          let st := removeInstance parentDom (some inst) st
          match mountNode native compEval fuel parentDom node path st with
          | some (i2, st) => some (some i2, st)
          | none => none
        else
          match updateInstance native compEval fuel parentDom inst node path st with
          | some (i2, st) => some (some i2, st)
          | none => none
termination_by (fuel, 0, 0)

/-- `mountNode`: dispatch on the node type. -/
def mountNode (native : String → Bool) (compEval : CompEval) (fuel : Nat)
    (parentDom : Nat) (node : VNode) (path : String) (st : RState) :
    Option (Instance × RState) :=
  match node.type with
  | .text =>
    let value := node.nodeValue.getD ""
    let domId := st.nextDom
    let st := { st with
      doc := docSet st.doc domId (.textNode value),
      nextDom := domId + 1,
      log := st.log ++ [.createText domId value] }
    let st := domAppendChild parentDom domId st
    let inst := Instance.mk st.nextInst .textK (some domId) node [] node.key path
    some (inst, { st with nextInst := st.nextInst + 1 })
  | .fragment =>
    match mountChildrenLoop native compEval fuel parentDom node.children 0 node.children path false st with
    | none => none
    | some (cis, st) =>
      let inst := Instance.mk st.nextInst .fragmentK (getFirstDomFromChildren cis) node cis node.key path
      some (inst, { st with nextInst := st.nextInst + 1 })
  | .comp cid _ =>
    mountComponent native compEval fuel parentDom cid node path st
  | .host tag =>
    let domId := st.nextDom
    let st := { st with
      doc := docSet st.doc domId (.elem tag []),
      nextDom := domId + 1,
      log := st.log ++ [.createEl domId tag] }
    let st := setDomProps native domId node.fields node.style st
    match mountChildrenLoop native compEval fuel domId node.children 0 node.children path true st with
    | none => none
    | some (cis, st) =>
      let st := domAppendChild parentDom domId st
      let inst := Instance.mk st.nextInst .hostK (some domId) node cis node.key path
      some (inst, { st with nextInst := st.nextInst + 1 })
termination_by (fuel, 3, 0)

/-- The child-mount loops of `mountNode` (`insertAfter` is the host
branch's extra `insertInstance` per child; the fragment branch omits
it). -/
def mountChildrenLoop (native : String → Bool) (compEval : CompEval) (fuel : Nat)
    (parentDom : Nat) (children : List VNode) (i : Nat) (allChildren : List VNode)
    (path : String) (insertAfter : Bool) (st : RState) :
    Option (List (Option Instance) × RState) :=
  match children with
  | [] => some ([], st)
  | child :: rest =>
    let childPath := Elements.createChildPath path child.key i (some child.type) allChildren
    match reconcile native compEval fuel parentDom none (some child) childPath st with
    | none => none
    | some (ci, st) =>
      let st := if insertAfter then insertInstance parentDom ci none st else st
      match mountChildrenLoop native compEval fuel parentDom rest (i + 1) allChildren path insertAfter st with
      | none => none
      | some (cis, st) => some (ci :: cis, st)
termination_by (fuel, 1, children.length)

/-- `mountComponent`: hook-context push, component invocation, child
mount, context pop. -/
def mountComponent (native : String → Bool) (compEval : CompEval) (fuel : Nat)
    (parentDom : Nat) (cid : Nat) (node : VNode) (path : String) (st : RState) :
    Option (Instance × RState) :=
  let st := { st with
    componentStack := st.componentStack ++ [path],
    cursorR := alistSet st.cursorR path 0,
    visitedR := addVisited st.visitedR path }
  let childNode := compEval cid node.propsArg
  let childPath := Elements.createChildPath path (childNode.bind fun n => n.key) 0
    (childNode.map fun n => n.type)
    (match childNode with | some n => [n] | none => [])
  match reconcile native compEval fuel parentDom none childNode childPath st with
  | none => none
  | some (ci, st) =>
    let st := { st with componentStack := st.componentStack.dropLast }
    let inst := Instance.mk st.nextInst .componentK (getFirstDomO ci) node
      (match ci with | some c => [some c] | none => []) node.key path
    some (inst, { st with nextInst := st.nextInst + 1 })
termination_by (fuel, 1, 0)

/-- `updateInstance`: in-place update dispatched on the instance kind. -/
def updateInstance (native : String → Bool) (compEval : CompEval) (fuel : Nat)
    (parentDom : Nat) (inst : Instance) (node : VNode) (path : String) (st : RState) :
    Option (Instance × RState) :=
  match inst.kind with
  | .textK =>
    let newValue := node.nodeValue.getD ""
    let st :=
      match inst.dom with
      | some d => if textValueOf st.doc d ≠ some newValue then domSetNodeValue d newValue st else st
      | none => st
    some (Instance.mk inst.id .textK inst.dom node inst.children inst.key inst.path, st)
  | .fragmentK =>
    match reconcileChildren native compEval fuel parentDom inst node path st with
    | none => none
    | some (cis, st) =>
      some (Instance.mk inst.id .fragmentK (getFirstDomFromChildren cis) node cis inst.key inst.path, st)
  | .componentK =>
    match node.type with
    | .comp cid _ => updateComponent native compEval fuel parentDom cid inst node path st
    | _ => none
  | .hostK =>
    match inst.dom with
    | none => none
    | some d =>
      let st := updateDomProps native d inst.node.fields inst.node.style node.fields node.style st
      match reconcileChildren native compEval fuel d inst node path st with
      | none => none
      | some (cis, st) =>
        some (Instance.mk inst.id .hostK (some d) node cis inst.key inst.path, st)
termination_by (fuel, 3, 0)

/-- `updateComponent`: hook-context push, re-invocation, child
reconcile against the stored single child, context pop. -/
def updateComponent (native : String → Bool) (compEval : CompEval) (fuel : Nat)
    (parentDom : Nat) (cid : Nat) (inst : Instance) (node : VNode) (path : String)
    (st : RState) : Option (Instance × RState) :=
  let st := { st with
    componentStack := st.componentStack ++ [path],
    cursorR := alistSet st.cursorR path 0,
    visitedR := addVisited st.visitedR path }
  let childNode := compEval cid node.propsArg
  let oldChild : Option Instance :=
    match inst.children with
    | [] => none
    | c :: _ => c
  let childPath := Elements.createChildPath path (childNode.bind fun n => n.key) 0
    (childNode.map fun n => n.type)
    (match childNode with | some n => [n] | none => [])
  match reconcile native compEval fuel parentDom oldChild childNode childPath st with
  | none => none
  | some (ci, st) =>
    let st := { st with componentStack := st.componentStack.dropLast }
    let inst' := Instance.mk inst.id .componentK (getFirstDomO ci) node
      (match ci with | some c => [some c] | none => []) inst.key inst.path
    some (inst', st)
termination_by (fuel, 1, 0)

/-- `reconcileChildren`: key-map partition, matching loop, removal of
unused old children, reverse-order insertion pass. -/
def reconcileChildren (native : String → Bool) (compEval : CompEval) (fuel : Nat)
    (parentDom : Nat) (inst : Instance) (node : VNode) (path : String) (st : RState) :
    Option (List (Option Instance) × RState) :=
  let oldChildren := inst.children
  let newChildren := node.children
  let km := partitionOld oldChildren
  match matchLoop native compEval fuel parentDom path newChildren 0 newChildren km.1 km.2 [] st with
  | none => none
  | some (newInsts, used, st) =>
    let st := removeLoop parentDom oldChildren used st
    let st := insertPassRev parentDom newInsts.reverse none st
    some (newInsts, st)
termination_by (fuel, 2, 0)

/-- The per-new-child matching-and-reconcile loop of
`reconcileChildren`. -/
def matchLoop (native : String → Bool) (compEval : CompEval) (fuel : Nat)
    (parentDom : Nat) (path : String) (children : List VNode) (i : Nat)
    (allNew : List VNode) (keyMap : List (String × Instance)) (keyless : List Instance)
    (used : List Nat) (st : RState) :
    Option (List (Option Instance) × List Nat × RState) :=
  match children with
  | [] => some ([], used, st)
  | c :: rest =>
    let childPath := Elements.createChildPath path c.key i (some c.type) allNew
    let matched0 : Option Instance :=
      match c.key with
      | some k => alistGet keyMap k
      | none => none
    let used1 := match matched0 with | some m => used ++ [m.id] | none => used
    let mu : Option Instance × List Nat :=
      match matched0 with
      | some m => (some m, used1)
      | none =>
        match findKeyless keyless used1 c.type with
        | some m => (some m, used1 ++ [m.id])
        | none => (none, used1)
    match reconcile native compEval fuel parentDom mu.1 (some c) childPath st with
    | none => none
    | some (ri, st) =>
      match matchLoop native compEval fuel parentDom path rest (i + 1) allNew keyMap keyless mu.2 st with
      | none => none
      | some (ris, used3, st) => some (ri :: ris, used3, st)
termination_by (fuel, 1, children.length)

end

/-! ## Claim C9: `setup` (from `src/unnamed/part_002`) fails fast

`setup` validates its inputs before touching any state: an invalid
container or a `null` root throws synchronously, and the teardown /
reset / first-render chain runs only after both checks pass.  The
imported `render` entry point is threaded as a parameter. -/

/-- The `context.root` slot. -/
structure RootCtx where
  container : Option Nat
  node : Option VNode
  inst : Option Instance

/-- The whole process state `setup` can touch: root context, hook
store (with the effect queue), and the surface/reconciler state. -/
structure AppState where
  root : RootCtx
  hooks : HCtx
  rstate : RState

/-- `container instanceof HTMLElement`. -/
def isHTMLElement (doc : List (Nat × DomNode)) (c : Nat) : Bool :=
  match docGet doc c with
  | some (.elem _ _) => true
  | _ => false

/-- Modelled from the spec: `context.hooks.clear()` of the absent
`context.ts` resets the path-keyed registries (the array objects in the
heap are unreachable but unaffected). -/
def hooksClear (c : HCtx) : HCtx :=
  { c with state := [], cursor := [], visited := [] }

/-- `setup` from `src/unnamed/part_002`: container validation, null
root validation, then teardown of the previous instance, container
clearing, hook cleanup, root/hook/effect-queue reset and the first
render. -/
def setup (render : AppState → AppState) (rootNode : Option VNode)
    (container : Option Nat) (s : AppState) : Except String Unit × AppState :=
  match container with
  | none => (.error "Container is required", s)
  | some c =>
    if ¬ isHTMLElement s.rstate.doc c then (.error "Container is required", s)
    else
      match rootNode with
      | none => (.error "Cannot render null root element", s)
      | some rn =>
        let s :=
          match s.root.inst with
          | some prev => { s with rstate := removeInstance c (some prev) s.rstate }
          | none => s
        let s := { s with rstate := { s.rstate with doc := setChildren s.rstate.doc c [] } }
        let s := { s with hooks := cleanupUnusedHooks s.hooks }
        let s := { s with root := ⟨some c, some rn, none⟩ }
        let s := { s with hooks := hooksClear s.hooks }
        let s := { s with hooks := { s.hooks with queue := [] } }
        (.ok (), render s)

/-- Claim C9: a missing or non-element container, or a `null` root,
makes `setup` return the corresponding synchronous error with the
process state exactly as it was — no partial state is committed. -/
theorem c9_setup_fail_fast (render : AppState → AppState) (rootNode : Option VNode)
    (container : Option Nat) (s : AppState) :
    (container = none →
      setup render rootNode container s = (.error "Container is required", s)) ∧
    (∀ c, container = some c → isHTMLElement s.rstate.doc c = false →
      setup render rootNode container s = (.error "Container is required", s)) ∧
    (∀ c, container = some c → isHTMLElement s.rstate.doc c = true → rootNode = none →
      setup render rootNode container s = (.error "Cannot render null root element", s)) := by
  refine ⟨?_, ?_, ?_⟩
  · intro h
    rw [h]
    rfl
  · intro c hc hv
    rw [hc]
    unfold setup
    simp [hv]
  · intro c hc hv hroot
    rw [hc, hroot]
    unfold setup
    simp [hv]

/-- Witness for C9: a concrete invalid-container call and a concrete
null-root call, both leaving the state untouched. -/
theorem c9_setup_fail_fast_witness :
    (setup id none none
        ⟨⟨none, none, none⟩,
         ⟨[], [], 0, [], [], [], [], false, false⟩,
         ⟨[(0, .elem "div" [])], 1, 0, [], [], [], []⟩⟩ =
      (.error "Container is required",
        ⟨⟨none, none, none⟩,
         ⟨[], [], 0, [], [], [], [], false, false⟩,
         ⟨[(0, .elem "div" [])], 1, 0, [], [], [], []⟩⟩)) ∧
    (setup id none (some 0)
        ⟨⟨none, none, none⟩,
         ⟨[], [], 0, [], [], [], [], false, false⟩,
         ⟨[(0, .elem "div" [])], 1, 0, [], [], [], []⟩⟩ =
      (.error "Cannot render null root element",
        ⟨⟨none, none, none⟩,
         ⟨[], [], 0, [], [], [], [], false, false⟩,
         ⟨[(0, .elem "div" [])], 1, 0, [], [], [], []⟩⟩)) :=
  ⟨(c9_setup_fail_fast id none none
      ⟨⟨none, none, none⟩, ⟨[], [], 0, [], [], [], [], false, false⟩,
       ⟨[(0, .elem "div" [])], 1, 0, [], [], [], []⟩⟩).1 rfl,
   (c9_setup_fail_fast id none (some 0)
      ⟨⟨none, none, none⟩, ⟨[], [], 0, [], [], [], [], false, false⟩,
       ⟨[(0, .elem "div" [])], 1, 0, [], [], [], []⟩⟩).2.2 0 rfl rfl rfl⟩

/-! ## Surface-store lemmas -/

theorem docGet_cons (e : Nat × DomNode) (rest : List (Nat × DomNode)) (m : Nat) :
    docGet (e :: rest) m = if e.1 = m then some e.2 else docGet rest m := by
  by_cases h : e.1 = m
  · simp [docGet, List.find?, h]
  · simp [docGet, List.find?, h, show (e.1 == m) = false from beq_eq_false_iff_ne.mpr h]

theorem docGet_docSet (doc : List (Nat × DomNode)) (n : Nat) (v : DomNode) (m : Nat) :
    docGet (docSet doc n v) m = if n = m then some v else docGet doc m := by
  induction doc with
  | nil =>
    by_cases h : n = m
    · simp [docSet, docGet, List.find?, h]
    · simp [docSet, docGet, List.find?, h,
        show (n == m) = false from beq_eq_false_iff_ne.mpr h]
  | cons e rest ih =>
    by_cases he : e.1 = n
    · simp only [docSet, if_pos he]
      by_cases h : n = m
      · subst h
        simp [docGet_cons]
      · rw [docGet_cons, docGet_cons]
        simp [h, show ¬ e.1 = m from fun hh => h (he ▸ hh)]
    · simp only [docSet, if_neg he]
      rw [docGet_cons, docGet_cons]
      by_cases hm : e.1 = m
      · simp [hm, show ¬ n = m from fun hh => he (hm ▸ hh ▸ rfl)]
      · simp only [if_neg hm]
        exact ih

theorem detachNode_cons (e : Nat × DomNode) (rest : List (Nat × DomNode)) (c : Nat) :
    detachNode (e :: rest) c =
      (e.1, match e.2 with
            | .elem t cs => DomNode.elem t (cs.filter fun x => x ≠ c)
            | .textNode v => .textNode v) :: detachNode rest c := by
  cases e with
  | mk n dn => cases dn <;> rfl

theorem docGet_detachNode (doc : List (Nat × DomNode)) (c m : Nat) :
    docGet (detachNode doc c) m =
      (docGet doc m).map fun dn =>
        match dn with
        | .elem t cs => .elem t (cs.filter fun x => x ≠ c)
        | .textNode v => .textNode v := by
  induction doc with
  | nil => simp [detachNode, docGet]
  | cons e rest ih =>
    rw [detachNode_cons, docGet_cons, docGet_cons]
    by_cases h : e.1 = m
    · simp only [if_pos h]
      cases e.2 <;> rfl
    · simp only [if_neg h]
      exact ih

theorem childrenOf_detachNode (doc : List (Nat × DomNode)) (c q : Nat) :
    childrenOf (detachNode doc c) q = (childrenOf doc q).filter fun x => x ≠ c := by
  unfold childrenOf
  rw [docGet_detachNode]
  cases docGet doc q with
  | none => rfl
  | some dn => cases dn <;> rfl

theorem childrenOf_setChildren (doc : List (Nat × DomNode)) (p : Nat) (cs : List Nat)
    (q : Nat) :
    childrenOf (setChildren doc p cs) q =
      match docGet doc p with
      | some (.elem _ _) => if q = p then cs else childrenOf doc q
      | _ => childrenOf doc q := by
  unfold setChildren
  cases hp : docGet doc p with
  | none => simp
  | some dn =>
    cases dn with
    | elem t cs0 =>
      unfold childrenOf
      rw [docGet_docSet]
      by_cases hq : q = p
      · simp [hq]
      · simp [hq, show ¬ p = q from fun hh => hq hh.symm]
    | textNode v => simp

theorem mem_insertBeforeIn {l : List Nat} {c a x : Nat}
    (h : x ∈ insertBeforeIn l c a) : x ∈ l ∨ x = c := by
  induction l with
  | nil =>
    simp [insertBeforeIn] at h
    exact Or.inr h
  | cons y rest ih =>
    unfold insertBeforeIn at h
    by_cases hy : y = a
    · rw [if_pos hy] at h
      rcases List.mem_cons.mp h with h' | h'
      · exact Or.inr h'
      · exact Or.inl h'
    · rw [if_neg hy] at h
      rcases List.mem_cons.mp h with h' | h'
      · exact Or.inl (by simp [h'])
      · rcases ih h' with h'' | h''
        · exact Or.inl (List.mem_cons_of_mem _ h'')
        · exact Or.inr h''

/-- `appendChild` adds only the appended node to any child list. -/
theorem domAppendChild_adds {p c : Nat} {st : RState} {q d : Nat}
    (h : d ∈ childrenOf (domAppendChild p c st).doc q) :
    d ∈ childrenOf st.doc q ∨ d = c := by
  unfold domAppendChild at h
  simp only at h
  rw [childrenOf_setChildren] at h
  split at h
  · by_cases hq : q = p
    · rw [if_pos hq] at h
      rcases List.mem_append.mp h with h' | h'
      · rw [childrenOf_detachNode] at h'
        exact Or.inl (hq ▸ List.mem_of_mem_filter h')
      · simp at h'
        exact Or.inr h'
    · rw [if_neg hq] at h
      rw [childrenOf_detachNode] at h
      exact Or.inl (List.mem_of_mem_filter h)
  · rw [childrenOf_detachNode] at h
    exact Or.inl (List.mem_of_mem_filter h)

/-- `insertBefore` adds only the inserted node to any child list. -/
theorem domInsertBefore_adds {p c a : Nat} {st : RState} {q d : Nat}
    (h : d ∈ childrenOf (domInsertBefore p c a st).doc q) :
    d ∈ childrenOf st.doc q ∨ d = c := by
  unfold domInsertBefore at h
  simp only at h
  rw [childrenOf_setChildren] at h
  split at h
  · by_cases hq : q = p
    · rw [if_pos hq] at h
      rcases mem_insertBeforeIn h with h' | h'
      · rw [childrenOf_detachNode] at h'
        exact Or.inl (hq ▸ List.mem_of_mem_filter h')
      · exact Or.inr h'
    · rw [if_neg hq] at h
      rw [childrenOf_detachNode] at h
      exact Or.inl (List.mem_of_mem_filter h)
  · rw [childrenOf_detachNode] at h
    exact Or.inl (List.mem_of_mem_filter h)

/-- `removeChild` only removes. -/
theorem domRemoveChild_subset {p c : Nat} {st : RState} {q d : Nat}
    (h : d ∈ childrenOf (domRemoveChild p c st).doc q) :
    d ∈ childrenOf st.doc q := by
  unfold domRemoveChild at h
  rw [childrenOf_setChildren] at h
  split at h
  · by_cases hq : q = p
    · rw [if_pos hq] at h
      exact hq ▸ List.mem_of_mem_filter h
    · rwa [if_neg hq] at h
  · exact h

theorem childrenOf_domSetNodeValue (n : Nat) (v : String) (st : RState) (q : Nat) :
    childrenOf (domSetNodeValue n v st).doc q = childrenOf st.doc q := by
  unfold domSetNodeValue
  cases hn : docGet st.doc n with
  | none => simp [hn]
  | some dn =>
    cases dn with
    | elem t cs => simp [hn]
    | textNode w =>
      simp only [hn]
      unfold childrenOf
      rw [docGet_docSet]
      by_cases hq : n = q
      · rw [if_pos hq]
        rw [show docGet st.doc q = some (DomNode.textNode w) from hq ▸ hn]
      · rw [if_neg hq]

theorem domRemoveChild_proj (p c : Nat) (st : RState) :
    (domRemoveChild p c st).nextDom = st.nextDom ∧
      (domRemoveChild p c st).nextInst = st.nextInst := ⟨rfl, rfl⟩

/-- The prop-application functions only log: the store and allocators
are untouched. -/
theorem setDomProp_doc (native : String → Bool) (dom : Nat) (k : String) (v : PropVal)
    (st : RState) :
    (setDomProp native dom k v st).doc = st.doc ∧
      (setDomProp native dom k v st).nextDom = st.nextDom ∧
      (setDomProp native dom k v st).nextInst = st.nextInst := by
  simp only [setDomProp]
  split_ifs <;> exact ⟨rfl, rfl, rfl⟩

theorem setDomProps_doc (native : String → Bool) (dom : Nat)
    (fields : List (String × PropVal)) (style : Option (List (String × StyleVal)))
    (st : RState) :
    (setDomProps native dom fields style st).doc = st.doc ∧
      (setDomProps native dom fields style st).nextDom = st.nextDom ∧
      (setDomProps native dom fields style st).nextInst = st.nextInst := by
  unfold setDomProps
  have hfold : ∀ (fs : List (String × PropVal)) (st0 : RState),
      (fs.foldl (fun st kv => setDomProp native dom kv.1 kv.2 st) st0).doc = st0.doc ∧
        (fs.foldl (fun st kv => setDomProp native dom kv.1 kv.2 st) st0).nextDom = st0.nextDom ∧
        (fs.foldl (fun st kv => setDomProp native dom kv.1 kv.2 st) st0).nextInst = st0.nextInst := by
    intro fs
    induction fs with
    | nil => intro st0; exact ⟨rfl, rfl, rfl⟩
    | cons kv rest ih =>
      intro st0
      have h1 := setDomProp_doc native dom kv.1 kv.2 st0
      have h2 := ih (setDomProp native dom kv.1 kv.2 st0)
      simp only [List.foldl_cons]
      exact ⟨h2.1.trans h1.1, h2.2.1.trans h1.2.1, h2.2.2.trans h1.2.2⟩
  cases style with
  | none => exact hfold fields st
  | some sts =>
    have hs : ∀ (ss : List (String × StyleVal)) (st0 : RState),
        (ss.foldl (fun st sv => { st with log := st.log ++ [.setStyle dom sv.1] }) st0).doc = st0.doc ∧
          (ss.foldl (fun st sv => { st with log := st.log ++ [.setStyle dom sv.1] }) st0).nextDom = st0.nextDom ∧
          (ss.foldl (fun st sv => { st with log := st.log ++ [.setStyle dom sv.1] }) st0).nextInst = st0.nextInst := by
      intro ss
      induction ss with
      | nil => intro st0; exact ⟨rfl, rfl, rfl⟩
      | cons sv rest ih =>
        intro st0
        simp only [List.foldl_cons]
        exact ih _
    have h1 := hfold fields st
    have h2 := hs sts (fields.foldl (fun st kv => setDomProp native dom kv.1 kv.2 st) st)
    exact ⟨h2.1.trans h1.1, h2.2.1.trans h1.2.1, h2.2.2.trans h1.2.2⟩

/-- `GrowsFrom b st st'`: the allocators only grow, and any id newly
appearing in a child list is at least `b` (freshly created relative to
base `b`). -/
def GrowsFrom (b : Nat) (st st' : RState) : Prop :=
  st.nextDom ≤ st'.nextDom ∧ st.nextInst ≤ st'.nextInst ∧
    ∀ q d, d ∈ childrenOf st'.doc q → d ∈ childrenOf st.doc q ∨ b ≤ d

theorem growsFrom_refl (b : Nat) (st : RState) : GrowsFrom b st st :=
  ⟨le_refl _, le_refl _, fun _ _ h => Or.inl h⟩

theorem growsFrom_trans {b : Nat} {st1 st2 st3 : RState}
    (h1 : GrowsFrom b st1 st2) (h2 : GrowsFrom b st2 st3) : GrowsFrom b st1 st3 := by
  refine ⟨h1.1.trans h2.1, h1.2.1.trans h2.2.1, ?_⟩
  intro q d hd
  rcases h2.2.2 q d hd with h | h
  · exact h1.2.2 q d h
  · exact Or.inr h

theorem growsFrom_weaken {b b' : Nat} {st st' : RState} (hb : b' ≤ b)
    (h : GrowsFrom b st st') : GrowsFrom b' st st' :=
  ⟨h.1, h.2.1, fun q d hd => (h.2.2 q d hd).imp_right fun hh => hb.trans hh⟩

/-- A state change that leaves `doc`, `nextDom` and `nextInst` alone
grows from any base. -/
theorem growsFrom_of_same {b : Nat} {st st' : RState}
    (hdoc : st'.doc = st.doc) (hd : st'.nextDom = st.nextDom)
    (hi : st'.nextInst = st.nextInst) : GrowsFrom b st st' := by
  refine ⟨hd.ge, hi.ge, ?_⟩
  intro q d hq
  rw [hdoc] at hq
  exact Or.inl hq

theorem insertNodes_proj (p : Nat) (anchor : Option Nat) (ns : List Nat) (st : RState) :
    (insertNodes p anchor ns st).nextDom = st.nextDom ∧
      (insertNodes p anchor ns st).nextInst = st.nextInst := by
  induction ns generalizing st with
  | nil => exact ⟨rfl, rfl⟩
  | cons n rest ih =>
    unfold insertNodes
    split
    · exact ih st
    · cases anchor with
      | some a => exact ih _
      | none => exact ih _

theorem insertNodes_adds {p : Nat} {anchor : Option Nat} {ns : List Nat} {st : RState}
    {q d : Nat} (h : d ∈ childrenOf (insertNodes p anchor ns st).doc q) :
    d ∈ childrenOf st.doc q ∨ d ∈ ns := by
  induction ns generalizing st with
  | nil => exact Or.inl h
  | cons n rest ih =>
    simp only [insertNodes] at h
    rcases ih h with h' | h'
    · split at h'
      · exact Or.inl h'
      · cases anchor with
        | some a =>
          rcases domInsertBefore_adds h' with h'' | h''
          · exact Or.inl h''
          · exact Or.inr (by simp [h''])
        | none =>
          rcases domAppendChild_adds h' with h'' | h''
          · exact Or.inl h''
          · exact Or.inr (by simp [h''])
    · exact Or.inr (List.mem_cons_of_mem _ h')

/-- `insertNodes` of fresh nodes grows from base `b`. -/
theorem insertNodes_growsFrom {b : Nat} {p : Nat} {anchor : Option Nat} {ns : List Nat}
    {st : RState} (hfresh : ∀ n ∈ ns, b ≤ n) :
    GrowsFrom b st (insertNodes p anchor ns st) := by
  refine ⟨(insertNodes_proj p anchor ns st).1.ge, (insertNodes_proj p anchor ns st).2.ge, ?_⟩
  intro q d hd
  rcases insertNodes_adds hd with h | h
  · exact Or.inl h
  · exact Or.inr (hfresh d h)

theorem childrenOf_domRemoveChild (p c : Nat) (st : RState) (q : Nat) :
    childrenOf (domRemoveChild p c st).doc q =
      if q = p then (childrenOf st.doc p).filter (fun x => x ≠ c)
      else childrenOf st.doc q := by
  unfold domRemoveChild
  rw [childrenOf_setChildren]
  cases hp : docGet st.doc p with
  | none =>
    by_cases hq : q = p
    · simp [hq, childrenOf, hp]
    · simp [hq]
  | some dn =>
    cases dn with
    | elem t cs => rfl
    | textNode v =>
      by_cases hq : q = p
      · simp [hq, childrenOf, hp]
      · simp [hq]

theorem removeNodes_proj (p : Nat) (ns : List Nat) (st : RState) :
    (removeNodes p ns st).nextDom = st.nextDom ∧
      (removeNodes p ns st).nextInst = st.nextInst ∧
      (removeNodes p ns st).componentStack = st.componentStack ∧
      (removeNodes p ns st).cursorR = st.cursorR ∧
      (removeNodes p ns st).visitedR = st.visitedR := by
  induction ns generalizing st with
  | nil => exact ⟨rfl, rfl, rfl, rfl, rfl⟩
  | cons n rest ih =>
    unfold removeNodes
    split
    · exact ih _
    · exact ih st

theorem removeNodes_subset {p : Nat} {ns : List Nat} {st : RState} {q d : Nat}
    (h : d ∈ childrenOf (removeNodes p ns st).doc q) : d ∈ childrenOf st.doc q := by
  induction ns generalizing st with
  | nil => exact h
  | cons n rest ih =>
    unfold removeNodes at h
    split at h
    · have h' := ih h
      rw [childrenOf_domRemoveChild] at h'
      by_cases hq : q = p
      · rw [if_pos hq] at h'
        exact hq ▸ List.mem_of_mem_filter h'
      · rwa [if_neg hq] at h'
    · exact ih h

theorem removeNodes_growsFrom (b : Nat) (p : Nat) (ns : List Nat) (st : RState) :
    GrowsFrom b st (removeNodes p ns st) :=
  ⟨(removeNodes_proj p ns st).1.ge, (removeNodes_proj p ns st).2.1.ge,
    fun _ _ h => Or.inl (removeNodes_subset h)⟩

theorem childrenOf_docSet (doc : List (Nat × DomNode)) (n : Nat) (dn : DomNode) (q : Nat) :
    childrenOf (docSet doc n dn) q =
      if n = q then (match dn with | .elem _ cs => cs | .textNode _ => []) else childrenOf doc q := by
  unfold childrenOf
  rw [docGet_docSet]
  by_cases h : n = q
  · simp only [if_pos h]
    cases dn <;> rfl
  · simp only [if_neg h]

def getDomNodesO : Option Instance → List Nat
  | none => []
  | some i => getDomNodes i

theorem getDomNodesL_cons (oi : Option Instance) (rest : List (Option Instance)) :
    getDomNodesL (oi :: rest) = getDomNodesO oi ++ getDomNodesL rest := by
  cases oi <;> simp [getDomNodesL, getDomNodesO]

/-! ### Mount allocates only fresh surface nodes and instance ids -/

/-- Everything `reconcile` can do starting from a null instance: the
allocators grow and every id newly inserted into a child list — and
every surface node of the mounted instance — is fresh relative to the
starting `nextDom`. -/
def ReconcileMountStmt (native : String → Bool) (compEval : CompEval) (fuel : Nat) : Prop :=
  ∀ p n? path st oi st',
    reconcile native compEval fuel p none n? path st = some (oi, st') →
    GrowsFrom st.nextDom st st' ∧ ∀ d ∈ getDomNodesO oi, st.nextDom ≤ d

def MountNodeStmt (native : String → Bool) (compEval : CompEval) (fuel : Nat) : Prop :=
  ∀ p n path st i2 st',
    mountNode native compEval fuel p n path st = some (i2, st') →
    GrowsFrom st.nextDom st st' ∧ st.nextInst ≤ i2.id ∧ i2.path = path ∧ i2.node = n ∧
    ∀ d ∈ getDomNodes i2, st.nextDom ≤ d

def MountLoopStmt (native : String → Bool) (compEval : CompEval) (fuel : Nat) : Prop :=
  ∀ p children i allChildren path ins st cis st',
    mountChildrenLoop native compEval fuel p children i allChildren path ins st = some (cis, st') →
    GrowsFrom st.nextDom st st' ∧ ∀ d ∈ getDomNodesL cis, st.nextDom ≤ d

def MountCompStmt (native : String → Bool) (compEval : CompEval) (fuel : Nat) : Prop :=
  ∀ p cid n path st i2 st',
    mountComponent native compEval fuel p cid n path st = some (i2, st') →
    GrowsFrom st.nextDom st st' ∧ st.nextInst ≤ i2.id ∧ i2.path = path ∧ i2.node = n ∧
    ∀ d ∈ getDomNodes i2, st.nextDom ≤ d

theorem reconcileMount_zero (native : String → Bool) (compEval : CompEval) :
    ReconcileMountStmt native compEval 0 := by
  intro p n? path st oi st' h
  simp [reconcile] at h

theorem reconcileMount_succ {native : String → Bool} {compEval : CompEval} {fuel : Nat}
    (hm : MountNodeStmt native compEval fuel) :
    ReconcileMountStmt native compEval (fuel + 1) := by
  intro p n? path st oi st' h
  cases n? with
  | none =>
    simp [reconcile] at h
    obtain ⟨h1, h2⟩ := h
    subst h1
    subst h2
    exact ⟨growsFrom_refl _ _, by simp [getDomNodesO]⟩
  | some n =>
    simp only [reconcile] at h
    cases hm2 : mountNode native compEval fuel p n path st with
    | none => rw [hm2] at h; exact absurd h (by simp)
    | some r =>
      obtain ⟨i2, st2⟩ := r
      rw [hm2] at h
      simp only [Option.some.injEq, Prod.mk.injEq] at h
      obtain ⟨h1, h2⟩ := h
      subst h1
      subst h2
      have hs := hm p n path st i2 st2 hm2
      exact ⟨hs.1, fun d hd => hs.2.2.2.2 d hd⟩

theorem mountLoop_of {native : String → Bool} {compEval : CompEval} {fuel : Nat}
    (hr : ReconcileMountStmt native compEval fuel) :
    MountLoopStmt native compEval fuel := by
  intro p children
  induction children with
  | nil =>
    intro i allChildren path ins st cis st' h
    simp [mountChildrenLoop] at h
    obtain ⟨h1, h2⟩ := h
    subst h1
    subst h2
    exact ⟨growsFrom_refl _ _, by simp [getDomNodesL]⟩
  | cons child rest ih =>
    intro i allChildren path ins st cis st' h
    simp only [mountChildrenLoop] at h
    cases hrec : reconcile native compEval fuel p none (some child)
        (Elements.createChildPath path child.key i (some child.type) allChildren) st with
    | none => rw [hrec] at h; exact absurd h (by simp)
    | some r =>
      obtain ⟨ci, stA⟩ := r
      rw [hrec] at h
      simp only [] at h
      cases hloop : mountChildrenLoop native compEval fuel p rest (i + 1) allChildren path ins
          (if ins = true then insertInstance p ci none stA else stA) with
      | none => rw [hloop] at h; exact absurd h (by simp)
      | some r2 =>
        obtain ⟨cis2, stC⟩ := r2
        rw [hloop] at h
        simp only [Option.some.injEq, Prod.mk.injEq] at h
        obtain ⟨h1, h2⟩ := h
        subst h1
        subst h2
        have hA := hr p (some child) _ st ci stA hrec
        have hAB : GrowsFrom st.nextDom stA
            (if ins = true then insertInstance p ci none stA else stA) := by
          cases hins : ins
          · simp only [hins, Bool.false_eq_true, if_false]
            exact growsFrom_refl _ _
          · simp only [hins, if_true]
            cases ci with
            | none => exact growsFrom_refl _ _
            | some c =>
              unfold insertInstance
              exact insertNodes_growsFrom fun nd hnd => hA.2 nd (by simpa [getDomNodesO] using hnd)
        have hBase : st.nextDom ≤
            (if ins = true then insertInstance p ci none stA else stA).nextDom :=
          hA.1.1.trans hAB.1
        have hC := ih (i + 1) allChildren path ins _ cis2 stC hloop
        refine ⟨growsFrom_trans (growsFrom_trans hA.1 hAB) (growsFrom_weaken hBase hC.1), ?_⟩
        intro d hd
        rw [getDomNodesL_cons] at hd
        rcases List.mem_append.mp hd with hd' | hd'
        · exact hA.2 d hd'
        · exact hBase.trans (hC.2 d hd')

theorem mountComp_of {native : String → Bool} {compEval : CompEval} {fuel : Nat}
    (hr : ReconcileMountStmt native compEval fuel) :
    MountCompStmt native compEval fuel := by
  intro p cid n path st i2 st' h
  simp only [mountComponent] at h
  cases hrec : reconcile native compEval fuel p none (compEval cid n.propsArg)
      (Elements.createChildPath path ((compEval cid n.propsArg).bind fun n => n.key) 0
        ((compEval cid n.propsArg).map fun n => n.type)
        (match compEval cid n.propsArg with | some n => [n] | none => []))
      { st with
        componentStack := st.componentStack ++ [path],
        cursorR := alistSet st.cursorR path 0,
        visitedR := addVisited st.visitedR path } with
  | none => rw [hrec] at h; exact absurd h (by simp)
  | some r =>
    obtain ⟨ci, stB⟩ := r
    rw [hrec] at h
    simp only [Option.some.injEq, Prod.mk.injEq] at h
    obtain ⟨h1, h2⟩ := h
    subst h1
    subst h2
    have hA : GrowsFrom st.nextDom st
        { st with
          componentStack := st.componentStack ++ [path],
          cursorR := alistSet st.cursorR path 0,
          visitedR := addVisited st.visitedR path } :=
      growsFrom_of_same rfl rfl rfl
    have hB := hr p (compEval cid n.propsArg) _ _ ci stB hrec
    have hBC : GrowsFrom st.nextDom stB
        { stB with componentStack := stB.componentStack.dropLast } :=
      growsFrom_of_same rfl rfl rfl
    refine ⟨?_, ?_, rfl, rfl, ?_⟩
    · refine growsFrom_trans (growsFrom_trans hA hB.1) (growsFrom_trans hBC ?_)
      exact ⟨le_refl _, Nat.le_succ _, fun q d hq => Or.inl hq⟩
    · show st.nextInst ≤ stB.nextInst
      exact hB.1.2.1
    · intro d hd
      have : d ∈ getDomNodesO ci := by
        cases ci with
        | none => simp [getDomNodes, getDomNodesL] at hd
        | some c =>
          rw [show getDomNodes (Instance.mk stB.nextInst .componentK (getFirstDomO (some c)) n
              [some c] n.key path) = getDomNodesL [some c] from by
            rw [getDomNodes.eq_def]; simp] at hd
          simpa [getDomNodesL, getDomNodesO] using hd
      exact hB.2 d this

theorem mountNode_of {native : String → Bool} {compEval : CompEval} {fuel : Nat}
    (hl : MountLoopStmt native compEval fuel)
    (hc : MountCompStmt native compEval fuel) :
    MountNodeStmt native compEval fuel := by
  intro p n path st i2 st' h
  unfold mountNode at h
  split at h
  · -- text
    simp only [Option.some.injEq, Prod.mk.injEq] at h
    obtain ⟨h1, h2⟩ := h
    subst h1
    subst h2
    have hg1 : GrowsFrom st.nextDom st
        { st with
          doc := docSet st.doc st.nextDom (.textNode (n.nodeValue.getD "")),
          nextDom := st.nextDom + 1,
          log := st.log ++ [.createText st.nextDom (n.nodeValue.getD "")] } := by
      refine ⟨Nat.le_succ _, le_refl _, ?_⟩
      intro q d hd
      simp only [] at hd
      rw [childrenOf_docSet] at hd
      split at hd
      · simp at hd
      · exact Or.inl hd
    have hg2 : GrowsFrom st.nextDom
        { st with
          doc := docSet st.doc st.nextDom (.textNode (n.nodeValue.getD "")),
          nextDom := st.nextDom + 1,
          log := st.log ++ [.createText st.nextDom (n.nodeValue.getD "")] }
        (domAppendChild p st.nextDom
          { st with
            doc := docSet st.doc st.nextDom (.textNode (n.nodeValue.getD "")),
            nextDom := st.nextDom + 1,
            log := st.log ++ [.createText st.nextDom (n.nodeValue.getD "")] }) := by
      refine ⟨le_refl _, le_refl _, ?_⟩
      intro q d hd
      rcases domAppendChild_adds hd with h' | h'
      · exact Or.inl h'
      · exact Or.inr (le_of_eq h'.symm)
    refine ⟨?_, ?_, rfl, rfl, ?_⟩
    · exact growsFrom_trans (growsFrom_trans hg1 hg2)
        ⟨le_refl _, Nat.le_succ _, fun q d hq => Or.inl hq⟩
    · show st.nextInst ≤ st.nextInst
      exact le_refl _
    · intro d hd
      rw [getDomNodes.eq_def] at hd
      simp at hd
      exact le_of_eq hd.symm
  · -- fragment
    rename_i heq
    cases hloop : mountChildrenLoop native compEval fuel p n.children 0 n.children path false st with
    | none => rw [hloop] at h; exact absurd h (by simp)
    | some r =>
      obtain ⟨cis, stB⟩ := r
      rw [hloop] at h
      simp only [Option.some.injEq, Prod.mk.injEq] at h
      obtain ⟨h1, h2⟩ := h
      subst h1
      subst h2
      have hB := hl p n.children 0 n.children path false st cis stB hloop
      refine ⟨growsFrom_trans hB.1 ⟨le_refl _, Nat.le_succ _, fun q d hq => Or.inl hq⟩,
        ?_, rfl, rfl, ?_⟩
      · show st.nextInst ≤ stB.nextInst
        exact hB.1.2.1
      · intro d hd
        rw [getDomNodes.eq_def] at hd
        simp only [Instance.mk] at hd
        exact hB.2 d (by simpa using hd)
  · -- component
    exact hc p _ n path st i2 st' h
  · -- host
    rename_i tag heq
    simp only [] at h
    cases hloop : mountChildrenLoop native compEval fuel st.nextDom n.children 0 n.children path true
        (setDomProps native st.nextDom n.fields n.style
          { st with
            doc := docSet st.doc st.nextDom (.elem tag []),
            nextDom := st.nextDom + 1,
            log := st.log ++ [.createEl st.nextDom tag] }) with
    | none => rw [hloop] at h; exact absurd h (by simp)
    | some r =>
      obtain ⟨cis, stC⟩ := r
      rw [hloop] at h
      simp only [Option.some.injEq, Prod.mk.injEq] at h
      obtain ⟨h1, h2⟩ := h
      subst h1
      subst h2
      have hg1 : GrowsFrom st.nextDom st
          { st with
            doc := docSet st.doc st.nextDom (.elem tag []),
            nextDom := st.nextDom + 1,
            log := st.log ++ [.createEl st.nextDom tag] } := by
        refine ⟨Nat.le_succ _, le_refl _, ?_⟩
        intro q d hd
        simp only [] at hd
        rw [childrenOf_docSet] at hd
        split at hd
        · simp at hd
        · exact Or.inl hd
      have hsd := setDomProps_doc native st.nextDom n.fields n.style
        { st with
          doc := docSet st.doc st.nextDom (.elem tag []),
          nextDom := st.nextDom + 1,
          log := st.log ++ [.createEl st.nextDom tag] }
      have hg2 : GrowsFrom st.nextDom _ _ := growsFrom_of_same hsd.1 hsd.2.1 hsd.2.2
      have hC := hl st.nextDom n.children 0 n.children path true _ cis stC hloop
      have hbase : st.nextDom ≤ (setDomProps native st.nextDom n.fields n.style
          { st with
            doc := docSet st.doc st.nextDom (.elem tag []),
            nextDom := st.nextDom + 1,
            log := st.log ++ [.createEl st.nextDom tag] }).nextDom := by
        rw [hsd.2.1]
        exact Nat.le_succ _
      have hg3 := growsFrom_weaken hbase hC.1
      have hg4 : GrowsFrom st.nextDom stC (domAppendChild p st.nextDom stC) := by
        refine ⟨le_refl _, le_refl _, ?_⟩
        intro q d hd
        rcases domAppendChild_adds hd with h' | h'
        · exact Or.inl h'
        · exact Or.inr (le_of_eq h'.symm)
      refine ⟨?_, ?_, rfl, rfl, ?_⟩
      · exact growsFrom_trans (growsFrom_trans (growsFrom_trans (growsFrom_trans hg1 hg2) hg3) hg4)
          ⟨le_refl _, Nat.le_succ _, fun q d hq => Or.inl hq⟩
      · show st.nextInst ≤ stC.nextInst
        have : st.nextInst ≤ (setDomProps native st.nextDom n.fields n.style
            { st with
              doc := docSet st.doc st.nextDom (.elem tag []),
              nextDom := st.nextDom + 1,
              log := st.log ++ [.createEl st.nextDom tag] }).nextInst := le_of_eq hsd.2.2.symm
        exact this.trans hC.1.2.1
      · intro d hd
        rw [getDomNodes.eq_def] at hd
        simp at hd
        exact le_of_eq hd.symm

theorem mountNode_spec (native : String → Bool) (compEval : CompEval) :
    ∀ fuel, MountNodeStmt native compEval fuel := by
  intro fuel
  induction fuel with
  | zero =>
    exact mountNode_of (mountLoop_of (reconcileMount_zero native compEval))
      (mountComp_of (reconcileMount_zero native compEval))
  | succ f ih =>
    exact mountNode_of (mountLoop_of (reconcileMount_succ ih))
      (mountComp_of (reconcileMount_succ ih))

theorem reconcileMount_spec (native : String → Bool) (compEval : CompEval) :
    ∀ fuel, ReconcileMountStmt native compEval fuel := by
  intro fuel
  cases fuel with
  | zero => exact reconcileMount_zero native compEval
  | succ f => exact reconcileMount_succ (mountNode_spec native compEval f)

/-! ### Removal actually detaches (under a well-formed surface) -/

/-- Surface well-formedness, executable form: every child id's
`parentNode` is the element listing it. -/
def uniqueParentsB (doc : List (Nat × DomNode)) : Bool :=
  doc.all fun e =>
    match e.2 with
    | .elem _ cs => cs.all fun d => parentOf doc d == some e.1
    | .textNode _ => true

def UniqueParents (doc : List (Nat × DomNode)) : Prop :=
  ∀ p d, d ∈ childrenOf doc p → parentOf doc d = some p

theorem uniqueParentsB_sound {doc : List (Nat × DomNode)}
    (h : uniqueParentsB doc = true) : UniqueParents doc := by
  intro p d hd
  unfold childrenOf at hd
  unfold docGet at hd
  cases hfind : doc.find? fun e => e.1 == p with
  | none => rw [hfind] at hd; simp at hd
  | some e =>
    rw [hfind] at hd
    rw [show Option.map (fun (e : Nat × DomNode) => e.2) (some e) = some e.2 from rfl] at hd
    have hmem := List.mem_of_find?_eq_some hfind
    have hkey : e.1 = p := by
      have := List.find?_some hfind
      simpa using this
    unfold uniqueParentsB at h
    rw [List.all_eq_true] at h
    have he := h e hmem
    cases hdn : e.2 with
    | elem t cs =>
      rw [hdn] at he hd
      simp only at hd
      rw [List.all_eq_true] at he
      have := he d hd
      rw [hkey] at this
      simpa using this
    | textNode v =>
      rw [hdn] at hd
      simp at hd

theorem parentOf_cons (e : Nat × DomNode) (rest : List (Nat × DomNode)) (n : Nat) :
    parentOf (e :: rest) n =
      if (match e.2 with | .elem _ cs => cs.contains n | .textNode _ => false) = true
      then some e.1 else parentOf rest n := by
  obtain ⟨k, dn⟩ := e
  cases dn with
  | textNode v => simp [parentOf, List.find?]
  | elem t cs =>
    cases hc : cs.contains n with
    | true =>
      have hc' : n ∈ cs := by simpa using hc
      simp [parentOf, List.find?, hc']
    | false =>
      have hc' : ¬ n ∈ cs := by simpa using hc
      simp [parentOf, List.find?, hc']

/-- Replacing an element's children with a list that agrees on
containing `n` leaves `n`'s parent unchanged. -/
theorem parentOf_docSet_elem {doc : List (Nat × DomNode)} {p : Nat} {t cs t' cs' : _} {n : Nat}
    (hp : docGet doc p = some (.elem t cs))
    (hcn : (cs'.contains n) = (cs.contains n)) :
    parentOf (docSet doc p (.elem t' cs')) n = parentOf doc n := by
  induction doc with
  | nil => simp [docGet] at hp
  | cons e rest ih =>
    rw [docGet_cons] at hp
    by_cases hep : e.1 = p
    · rw [if_pos hep] at hp
      have he2 : e.2 = .elem t cs := by simpa using hp
      have hds : docSet (e :: rest) p (.elem t' cs') = (p, .elem t' cs') :: rest := by
        simp [docSet, hep]
      rw [hds, parentOf_cons, parentOf_cons, he2]
      simp only []
      rw [hcn]
      by_cases hcv : cs.contains n = true
      · rw [if_pos hcv, if_pos hcv, hep]
      · rw [if_neg hcv, if_neg hcv]
    · rw [if_neg hep] at hp
      have hds : docSet (e :: rest) p (.elem t' cs') = e :: docSet rest p (.elem t' cs') := by
        simp [docSet, hep]
      rw [hds, parentOf_cons, parentOf_cons]
      by_cases hpred :
          (match e.2 with | .elem _ cs => cs.contains n | .textNode _ => false) = true
      · rw [if_pos hpred, if_pos hpred]
      · rw [if_neg hpred, if_neg hpred]
        exact ih hp

/-- Removing a different node from some parent leaves `n`'s parent
unchanged. -/
theorem parentOf_domRemoveChild_other {p m n : Nat} {st : RState} (hne : n ≠ m) :
    parentOf (domRemoveChild p m st).doc n = parentOf st.doc n := by
  unfold domRemoveChild
  simp only []
  unfold setChildren
  cases hp : docGet st.doc p with
  | none => rfl
  | some dn =>
    cases dn with
    | textNode v => rfl
    | elem t cs =>
      have hcs : childrenOf st.doc p = cs := by unfold childrenOf; rw [hp]
      rw [hcs]
      refine parentOf_docSet_elem hp ?_
      cases hcv : cs.contains n with
      | true =>
        have : n ∈ cs := by simpa using hcv
        have : n ∈ cs.filter fun x => x ≠ m := List.mem_filter.mpr ⟨this, by simpa using hne⟩
        simpa using this
      | false =>
        have : n ∉ cs := by simpa using hcv
        have : n ∉ cs.filter fun x => x ≠ m := fun hmem => this (List.mem_of_mem_filter hmem)
        simpa using this

/-- Replacing the (first) `p`-keyed entry's children with a list not
containing `n` preserves `n`'s parent when that parent is not `p`. -/
theorem parentOf_docSet_of_ne {doc : List (Nat × DomNode)} {p : Nat} {t' : String}
    {cs' : List Nat} {n q : Nat}
    (hq : parentOf doc n = some q) (hqp : q ≠ p)
    (hcs' : cs'.contains n = false) :
    parentOf (docSet doc p (.elem t' cs')) n = some q := by
  induction doc with
  | nil => simp [parentOf] at hq
  | cons e rest ih =>
    rw [parentOf_cons] at hq
    by_cases hpred : (match e.2 with | .elem _ cs => cs.contains n | .textNode _ => false) = true
    · rw [if_pos hpred] at hq
      have hq' : e.1 = q := by simpa using hq
      have hep : ¬ e.1 = p := fun hh => hqp (hq' ▸ hh)
      simp only [docSet, if_neg hep]
      rw [parentOf_cons, if_pos hpred]
      exact hq' ▸ rfl
    · rw [if_neg hpred] at hq
      by_cases hep : e.1 = p
      · simp only [docSet, if_pos hep]
        rw [parentOf_cons]
        simp only [hcs']
        simpa using hq
      · simp only [docSet, if_neg hep]
        rw [parentOf_cons, if_neg hpred]
        exact ih hq

/-- Removing a child from `p` cannot change the parent of a node whose
parent is not `p`. -/
theorem parentOf_domRemoveChild_ne {p m n q : Nat} {st : RState}
    (hq : parentOf st.doc n = some q) (hqp : q ≠ p) :
    parentOf (domRemoveChild p m st).doc n = some q := by
  by_cases hnm : n = m
  · subst hnm
    unfold domRemoveChild
    simp only []
    unfold setChildren
    cases hp : docGet st.doc p with
    | none => exact hq
    | some dn =>
      cases dn with
      | textNode v => exact hq
      | elem t cs =>
        have hcs : childrenOf st.doc p = cs := by unfold childrenOf; rw [hp]
        rw [hcs]
        refine parentOf_docSet_of_ne hq hqp ?_
        simp
  · rw [parentOf_domRemoveChild_other hnm]
    exact hq

/-- `domRemoveChild` preserves surface well-formedness. -/
theorem uniqueParents_domRemoveChild {p c : Nat} {st : RState}
    (hwf : UniqueParents st.doc) : UniqueParents (domRemoveChild p c st).doc := by
  intro q m hm
  rw [childrenOf_domRemoveChild] at hm
  by_cases hq : q = p
  · rw [if_pos hq] at hm
    subst hq
    have hmc : m ∈ childrenOf st.doc q := List.mem_of_mem_filter hm
    have hne : m ≠ c := by
      have := (List.mem_filter.mp hm).2
      simpa using this
    rw [parentOf_domRemoveChild_other hne]
    exact hwf q m hmc
  · rw [if_neg hq] at hm
    have hpar := hwf q m hm
    by_cases hmc : m = c
    · subst hmc
      exact parentOf_domRemoveChild_ne hpar (fun hh => hq hh)
    · rw [parentOf_domRemoveChild_other hmc]
      exact hpar

/-- The removal loop preserves surface well-formedness. -/
theorem uniqueParents_removeNodes (p : Nat) (ns : List Nat) (st : RState)
    (hwf : UniqueParents st.doc) : UniqueParents (removeNodes p ns st).doc := by
  induction ns generalizing st with
  | nil => exact hwf
  | cons n rest ih =>
    unfold removeNodes
    split
    · exact ih _ (uniqueParents_domRemoveChild hwf)
    · exact ih st hwf

/-- A node absent from `p`'s children stays absent through the removal
loop (the loop only shrinks child lists). -/
theorem removeNodes_not_mem {p : Nat} {ns : List Nat} {st : RState} {n : Nat}
    (h : n ∉ childrenOf st.doc p) :
    n ∉ childrenOf (removeNodes p ns st).doc p :=
  fun hmem => h (removeNodes_subset hmem)

/-- On a well-formed surface, the removal loop detaches every listed
node from `p`. -/
theorem removeNodes_removes (p : Nat) (ns : List Nat) (st : RState)
    (hwf : UniqueParents st.doc) :
    ∀ n ∈ ns, n ∉ childrenOf (removeNodes p ns st).doc p := by
  induction ns generalizing st with
  | nil =>
    intro n hn
    simp at hn
  | cons m rest ih =>
    intro n hn
    rw [show removeNodes p (m :: rest) st =
      removeNodes p rest (if parentOf st.doc m = some p then domRemoveChild p m st else st)
      from rfl]
    by_cases hpar : parentOf st.doc m = some p
    · rw [if_pos hpar]
      rcases List.mem_cons.mp hn with hnm | hnr
      · subst hnm
        refine removeNodes_not_mem ?_
        rw [childrenOf_domRemoveChild, if_pos rfl]
        intro hmem
        have := (List.mem_filter.mp hmem).2
        simp at this
      · exact ih _ (uniqueParents_domRemoveChild hwf) n hnr
    · rw [if_neg hpar]
      rcases List.mem_cons.mp hn with hnm | hnr
      · subst hnm
        refine removeNodes_not_mem ?_
        intro hmem
        exact hpar (hwf p n hmem)
      · exact ih st hwf n hnr

/-! ## Claim C6: a type or key mismatch replaces, never patches -/

/-- **C6.** When `reconcile` meets a live instance and a new node whose
type or key differs, it removes every surface node the old instance
owns from the host parent's children (given a well-formed surface whose
old ids all predate the allocator) and mounts a brand-new instance for
the new node at the same path; the result is never the old instance —
its id is freshly allocated. -/
theorem c6_reconcile_mismatch_replaces (native : String → Bool) (compEval : CompEval)
    (fuel : Nat) (p : Nat) (inst : Instance) (node : VNode) (path : String)
    (st : RState) (oi : Option Instance) (st' : RState)
    (h : reconcile native compEval (fuel + 1) p (some inst) (some node) path st
      = some (oi, st'))
    (hmis : inst.node.type ≠ node.type ∨ inst.key ≠ node.key)
    (hwf : uniqueParentsB st.doc = true)
    (hdom : ∀ d ∈ getDomNodes inst, d < st.nextDom)
    (hid : inst.id < st.nextInst) :
    (∃ i2, oi = some i2 ∧ i2.id ≠ inst.id ∧ i2.path = path ∧ i2.node = node) ∧
      ∀ d ∈ getDomNodes inst, d ∉ childrenOf st'.doc p := by
  rw [reconcile.eq_def] at h
  simp only [removeInstance] at h
  rw [if_pos hmis] at h
  cases hmn : mountNode native compEval fuel p node path
      (removeNodes p (getDomNodes inst) st) with
  | none =>
    rw [hmn] at h
    exact absurd h (by simp)
  | some r =>
    obtain ⟨i2, st2⟩ := r
    rw [hmn] at h
    simp only [Option.some.injEq, Prod.mk.injEq] at h
    obtain ⟨h1, h2⟩ := h
    subst h1
    subst h2
    have hproj := removeNodes_proj p (getDomNodes inst) st
    have hspec := (mountNode_spec native compEval fuel) p node path
      (removeNodes p (getDomNodes inst) st) i2 st2 hmn
    constructor
    · refine ⟨i2, rfl, ?_, hspec.2.2.1, hspec.2.2.2.1⟩
      have hlt : inst.id < i2.id := by
        have := hspec.2.1
        rw [hproj.2.1] at this
        exact lt_of_lt_of_le hid this
      exact (Nat.ne_of_lt hlt).symm
    · intro d hd
      intro hmem
      have hnotR : d ∉ childrenOf (removeNodes p (getDomNodes inst) st).doc p :=
        removeNodes_removes p (getDomNodes inst) st (uniqueParentsB_sound hwf) d hd
      rcases hspec.1.2.2 p d hmem with hin | hge
      · exact hnotR hin
      · rw [hproj.1] at hge
        exact absurd hge (Nat.not_le.mpr (hdom d hd))

/-- Concrete C6 scenario: a mounted text instance confronted with a
`div` host node. -/
def c6Inst : Instance :=
  .mk 0 .textK (some 0) (VNode.mk .text none [] none [] (some "a")) [] none "r"

def c6Node : VNode := .mk (.host "div") none [] none [] none

def c6St : RState := ⟨[(1, .elem "div" [0]), (0, .textNode "a")], 2, 1, [], [], [], []⟩

def c6St' : RState :=
  ⟨[(1, .elem "div" [2]), (0, .textNode "a"), (2, .elem "div" [])], 3, 2,
    [.removeChild 1 0, .createEl 2 "div", .appendChild 1 2], [], [], []⟩

/-- Witness for C6 at the concrete mismatch scenario. -/
theorem c6_reconcile_mismatch_replaces_witness :
    (∃ i2, (some (Instance.mk 1 .hostK (some 2) c6Node [] none "q") : Option Instance)
        = some i2 ∧ i2.id ≠ c6Inst.id ∧ i2.path = "q" ∧ i2.node = c6Node) ∧
      ∀ d ∈ getDomNodes c6Inst, d ∉ childrenOf c6St'.doc 1 := by
  refine c6_reconcile_mismatch_replaces (fun _ => false) (fun _ _ => none) 0 1
    c6Inst c6Node "q" c6St
    (some (Instance.mk 1 .hostK (some 2) c6Node [] none "q")) c6St' ?_ ?_ ?_ ?_ ?_
  · rw [reconcile.eq_def]
    simp [mountNode, mountChildrenLoop, removeInstance, removeNodes, getDomNodes,
      domRemoveChild, setChildren, childrenOf, docGet, docSet, parentOf,
      domAppendChild, detachNode, setDomProps, c6Inst, c6Node, c6St, c6St',
      Instance.node, Instance.key, VNode.type, VNode.key, VNode.children,
      VNode.fields, VNode.style, VNode.nodeValue, Instance.id, List.find?,
      getFirstDomFromChildren, getFirstDomL]
  · left
    decide
  · decide
  · intro d hd
    have : d = 0 := by
      simpa [getDomNodes, c6Inst] using hd
    subst this
    decide
  · decide

/-! ## Claim C8: identical re-render and host-renderer calls

`updateDomProps` re-runs `addEventListener` for every function-valued
`on*` prop even when the handler is unchanged, so an identical re-render
is *not* silent in general.  The quiet fragment below characterises the
props for which the next-props pass of an identical diff issues no
call. -/

/-- A prop entry the identical-diff passes never touch: not a
function-valued `on*` handler, not a nullish `data-*` attribute, and
boolean only when the host exposes the key as a native property. -/
def quietPropB (native : String → Bool) (k : String) (v : PropVal) : Bool :=
  !(strStartsWith k "on" && isFnProp v) && !(strStartsWith k "data-" && isNullishProp v) &&
    (!isBoolProp v || native k)

/-- A quiet props bag: unique keys, every entry quiet. -/
def quietFieldsB (native : String → Bool) (fields : List (String × PropVal)) : Bool :=
  decide ((fields.map Prod.fst).Nodup) && fields.all fun e => quietPropB native e.1 e.2

/-- Folding a pointwise-identity step is the identity. -/
theorem foldl_self {α β : Type} (f : α → β → α) (l : List β) (a : α)
    (h : ∀ x ∈ l, ∀ b, f b x = b) : l.foldl f a = a := by
  induction l generalizing a with
  | nil => rfl
  | cons x rest ih =>
    rw [List.foldl_cons, h x (List.mem_cons_self x rest) a]
    exact ih a (fun y hy b => h y (List.mem_cons_of_mem x hy) b)

/-- With unique keys, a present entry is what lookup finds. -/
theorem lookupProp_self (fields : List (String × PropVal)) (k : String) (v : PropVal)
    (hnd : (fields.map Prod.fst).Nodup) (hm : (k, v) ∈ fields) :
    lookupProp fields k = v ∧ hasProp fields k = true := by
  induction fields with
  | nil => simp at hm
  | cons e rest ih =>
    obtain ⟨k0, v0⟩ := e
    simp only [List.map_cons, List.nodup_cons] at hnd
    rcases List.mem_cons.mp hm with he | hm2
    · have hk : k0 = k := congrArg Prod.fst he.symm
      have hv : v0 = v := congrArg Prod.snd he.symm
      subst hk
      subst hv
      constructor
      · simp [lookupProp, List.find?]
      · simp [hasProp]
    · have hk : ¬ (k0 == k) = true := by
        intro h
        have hk0 : k0 = k := by simpa using h
        subst hk0
        exact hnd.1 (by simpa using List.mem_map_of_mem Prod.fst hm2)
      have hrest := ih hnd.2 hm2
      constructor
      · rw [show lookupProp ((k0, v0) :: rest) k = lookupProp rest k from by
          simp [lookupProp, List.find?, hk]]
        exact hrest.1
      · rw [show hasProp ((k0, v0) :: rest) k = hasProp rest k from by
          simp [hasProp, hk]]
        exact hrest.2

/-- The removed-or-changed pass skips an entry still present with the
same value. -/
theorem updatePrevProp_skip (native : String → Bool) (dom : Nat)
    (nextFields : List (String × PropVal)) (k : String) (pv : PropVal) (st : RState)
    (hh : hasProp nextFields k = true) (hv : lookupProp nextFields k = pv) :
    updatePrevProp native dom nextFields k pv st = st := by
  unfold updatePrevProp
  simp only []
  rw [if_pos ⟨hh, hv⟩]

/-- An unchanged style object produces no style assignment. -/
theorem updateStyle_self (dom : Nat) (sts : List (String × StyleVal)) (st : RState) :
    updateStyle dom sts sts st = st := by
  unfold updateStyle
  exact foldl_self _ _ _ (fun x _ b => by rw [if_pos rfl])

/-- The added-or-changed pass is silent on a quiet unchanged entry. -/
theorem updateNextProp_skip (native : String → Bool) (dom : Nat)
    (prevFields : List (String × PropVal)) (k : String) (v : PropVal) (st : RState)
    (hv : lookupProp prevFields k = v) (hq : quietPropB native k v = true) :
    updateNextProp native dom prevFields k v st = st := by
  unfold quietPropB at hq
  rw [Bool.and_eq_true, Bool.and_eq_true] at hq
  obtain ⟨⟨hq1, hq2⟩, hq3⟩ := hq
  have h1 : strStartsWith k "on" = false ∨ isFnProp v = false := by simpa using hq1
  have h2 : strStartsWith k "data-" = false ∨ isNullishProp v = false := by simpa using hq2
  have h3 : isBoolProp v = false ∨ native k = true := by
    rw [Bool.or_eq_true] at hq3
    rcases hq3 with h | h
    · exact Or.inl (by simpa using h)
    · exact Or.inr h
  unfold updateNextProp
  simp only [hv]
  cases v <;> split_ifs <;> simp_all [isFnProp, isNullishProp, isBoolProp]

/-- An identical diff over a quiet props bag issues no host call. -/
theorem updateDomProps_self (native : String → Bool) (dom : Nat)
    (fields : List (String × PropVal)) (style : Option (List (String × StyleVal)))
    (st : RState) (hq : quietFieldsB native fields = true) :
    updateDomProps native dom fields style fields style st = st := by
  unfold quietFieldsB at hq
  rw [Bool.and_eq_true] at hq
  obtain ⟨hnd, hall⟩ := hq
  have hnd' : (fields.map Prod.fst).Nodup := of_decide_eq_true hnd
  rw [List.all_eq_true] at hall
  have hstep1 : ∀ x ∈ fields, ∀ b, updatePrevProp native dom fields x.1 x.2 b = b := by
    intro x hx b
    have hl := lookupProp_self fields x.1 x.2 hnd' hx
    exact updatePrevProp_skip native dom fields x.1 x.2 b hl.2 hl.1
  have hstep2 : ∀ x ∈ fields, ∀ b, updateNextProp native dom fields x.1 x.2 b = b := by
    intro x hx b
    have hl := lookupProp_self fields x.1 x.2 hnd' hx
    exact updateNextProp_skip native dom fields x.1 x.2 b hl.1 (hall x hx)
  unfold updateDomProps
  simp only []
  rw [foldl_self _ fields st hstep1, updateStyle_self, foldl_self _ fields st hstep2]

/-- The instance shapes over which an identical re-render is a strict
no-op: keyless text and host instances whose surface agrees with the
store — a text node holding the stored value, a host element whose
child list is exactly the children's nodes in order — and whose props
are quiet. -/
inductive QuietInst (native : String → Bool) (doc : List (Nat × DomNode)) : Instance → Prop where
  | text (id d : Nat) (node : VNode) (key : Option String) (path : String)
      (hval : textValueOf doc d = some (node.nodeValue.getD ""))
      (hkey : node.key = key) :
      QuietInst native doc (.mk id .textK (some d) node [] key path)
  | host (id d : Nat) (node : VNode) (children : List Instance) (key : Option String)
      (path : String)
      (hkey : node.key = key)
      (hfields : quietFieldsB native node.fields = true)
      (hch : node.children = children.map Instance.node)
      (hdoc : childrenOf doc d = children.map fun i => i.dom.getD 0)
      (hnd : (children.map fun i => i.dom.getD 0).Nodup)
      (hids : (children.map Instance.id).Nodup)
      (hchk : ∀ i ∈ children, i.key = none)
      (hsub : ∀ i ∈ children, QuietInst native doc i) :
      QuietInst native doc (.mk id .hostK (some d) node (children.map some) key path)

theorem quietInst_key {native : String → Bool} {doc : List (Nat × DomNode)} {i : Instance}
    (h : QuietInst native doc i) : i.node.key = i.key := by
  cases h with
  | text id d node key path hval hkey => exact hkey
  | host id d node children key path hkey hfields hch hdoc hnd hids hchk hsub => exact hkey

/-- A quiet instance owns exactly its one surface node. -/
theorem quietInst_doms {native : String → Bool} {doc : List (Nat × DomNode)} {i : Instance}
    (h : QuietInst native doc i) :
    getFirstDom i = some (i.dom.getD 0) ∧ getDomNodes i = [i.dom.getD 0] := by
  cases h with
  | text id d node path hval hkey =>
    constructor
    · rw [getFirstDom.eq_def]
      simp [Instance.dom]
    · rw [getDomNodes.eq_def]
      simp [Instance.dom]
  | host id d node children path hkey hfields hch hdoc hnd hids hsub =>
    constructor
    · rw [getFirstDom.eq_def]
      simp [Instance.dom]
    · rw [getDomNodes.eq_def]
      simp [Instance.dom]

/-- With only keyless old children the partition is the empty key map
and the instances in order. -/
theorem partitionOld_keyless (insts : List Instance)
    (hk : ∀ i ∈ insts, i.key = none) :
    partitionOld (insts.map some) = ([], insts) := by
  have hgen : ∀ (l : List Instance), (∀ i ∈ l, i.key = none) →
      ∀ acc : List (String × Instance) × List Instance,
      List.foldl
        (fun acc oc =>
          match oc with
          | none => acc
          | some i =>
            match i.key with
            | some k => (alistSet acc.1 k i, acc.2)
            | none => (acc.1, acc.2 ++ [i]))
        acc (l.map some) = (acc.1, acc.2 ++ l) := by
    intro l
    induction l with
    | nil =>
      intro _ acc
      simp
    | cons i rest ih =>
      intro hkk acc
      simp only [List.map_cons, List.foldl_cons]
      rw [hkk i (List.mem_cons_self i rest)]
      exact (ih (fun j hj => hkk j (List.mem_cons_of_mem i hj))
        (acc.1, acc.2 ++ [i])).trans (by simp)
  have := hgen insts hk ([], [])
  unfold partitionOld
  rw [this]
  simp

/-- `findKeyless` skips a prefix of already-used instances. -/
theorem findKeyless_skip (rest : List Instance) (used : List Nat) (ty : NType) :
    ∀ pre : List Instance, (∀ m ∈ pre, used.contains m.id = true) →
      findKeyless (pre ++ rest) used ty = findKeyless rest used ty := by
  intro pre
  induction pre with
  | nil => intro _; rfl
  | cons m pre ih =>
    intro h
    rw [List.cons_append]
    rw [show findKeyless (m :: (pre ++ rest)) used ty
      = if ¬(used.contains m.id) ∧ m.node.type = ty then some m
        else findKeyless (pre ++ rest) used ty from rfl]
    rw [if_neg (fun hc => hc.1 (h m (List.mem_cons_self m pre)))]
    exact ih (fun j hj => h j (List.mem_cons_of_mem m hj))

/-- `findKeyless` returns an unused head of matching type. -/
theorem findKeyless_head (m : Instance) (rest : List Instance) (used : List Nat)
    (hm : used.contains m.id = false) :
    findKeyless (m :: rest) used m.node.type = some m := by
  rw [show findKeyless (m :: rest) used m.node.type
    = if ¬(used.contains m.id) ∧ m.node.type = m.node.type then some m
      else findKeyless rest used m.node.type from rfl]
  rw [if_pos ⟨by simpa using hm, rfl⟩]

/-- The removal loop does nothing when every old child is used. -/
theorem removeLoop_all_used (d : Nat) (l : List (Option Instance)) (used : List Nat)
    (st : RState) (h : ∀ i : Instance, some i ∈ l → used.contains i.id = true) :
    removeLoop d l used st = st := by
  induction l generalizing st with
  | nil => rfl
  | cons oc rest ih =>
    cases oc with
    | none => exact ih st (fun i hi => h i (List.mem_cons_of_mem none hi))
    | some i =>
      rw [show removeLoop d (some i :: rest) used st
        = removeLoop d rest used (if used.contains i.id then st
            else removeInstance d (some i) st) from rfl]
      rw [h i (List.mem_cons_self _ _), if_pos rfl]
      exact ih st (fun j hj => h j (List.mem_cons_of_mem _ hj))

theorem listNextAfter_append (l1 : List Nat) (n : Nat) (rest : List Nat)
    (h : n ∉ l1) : listNextAfter (l1 ++ n :: rest) n = rest.head? := by
  induction l1 with
  | nil =>
    rw [List.nil_append]
    rw [show listNextAfter (n :: rest) n
      = if n = n then rest.head? else listNextAfter rest n from rfl]
    rw [if_pos rfl]
  | cons x l1 ih =>
    have hx : x ≠ n := fun hh => h (hh ▸ List.mem_cons_self x l1)
    rw [List.cons_append]
    rw [show listNextAfter (x :: (l1 ++ n :: rest)) n
      = if x = n then (l1 ++ n :: rest).head? else listNextAfter (l1 ++ n :: rest) n from rfl]
    rw [if_neg hx]
    exact ih (fun hh => h (List.mem_cons_of_mem x hh))

/-- The insert fast path: a single node already in position is left
alone. -/
theorem insertNodes_skip (p : Nat) (anchor : Option Nat) (n : Nat) (st : RState)
    (hp : parentOf st.doc n = some p) (hs : nextSiblingOf st.doc p n = anchor) :
    insertNodes p anchor [n] st = st := by
  unfold insertNodes
  simp only []
  rw [if_pos ⟨hp, hs⟩]
  rfl

theorem forall2_append {α β : Type} {R : α → β → Prop} {l1 u1 : List α} {l2 u2 : List β}
    (h : List.Forall₂ R l1 l2) (hu : List.Forall₂ R u1 u2) :
    List.Forall₂ R (l1 ++ u1) (l2 ++ u2) := by
  induction h with
  | nil => simpa using hu
  | cons hab hrest ih =>
    rw [List.cons_append, List.cons_append]
    exact List.Forall₂.cons hab ih

theorem forall2_reverse {α β : Type} {R : α → β → Prop} :
    ∀ {l1 : List α} {l2 : List β}, List.Forall₂ R l1 l2 →
      List.Forall₂ R l1.reverse l2.reverse := by
  intro l1 l2 h
  induction h with
  | nil => exact List.Forall₂.nil
  | cons hab hrest ih =>
    rw [List.reverse_cons, List.reverse_cons]
    exact forall2_append ih (List.Forall₂.cons hab List.Forall₂.nil)

theorem forall2_map_self {α β : Type} {R : α → β → Prop} (f : α → β) :
    ∀ l : List α, (∀ x ∈ l, R x (f x)) → List.Forall₂ R l (l.map f) := by
  intro l
  induction l with
  | nil => intro _; exact List.Forall₂.nil
  | cons x rest ih =>
    intro h
    rw [List.map_cons]
    exact List.Forall₂.cons (h x (List.mem_cons_self x rest))
      (ih fun y hy => h y (List.mem_cons_of_mem x hy))

/-- The reverse-order insertion pass over instances whose nodes already
sit under `d` in exactly the target order is a strict no-op: every node
hits the fast path. -/
theorem insertPassRev_inplace (d : Nat) :
    ∀ (rinsts : List Instance) (rns : List Nat),
      List.Forall₂ (fun i n => getFirstDom i = some n ∧ getDomNodes i = [n]) rinsts rns →
      ∀ (front after : List Nat) (st : RState),
        childrenOf st.doc d = front ++ rns.reverse ++ after →
        (childrenOf st.doc d).Nodup →
        UniqueParents st.doc →
        insertPassRev d (rinsts.map some) after.head? st = st := by
  intro rinsts rns h
  induction h with
  | nil =>
    intro front after st _ _ _
    rfl
  | @cons i n rinsts2 rns2 hin hrest ih =>
    intro front after st hch hnd hup
    obtain ⟨hfd, hdn⟩ := hin
    have hre : (n :: rns2).reverse = rns2.reverse ++ [n] := by simp
    have hch2 : childrenOf st.doc d = (front ++ rns2.reverse) ++ n :: after := by
      rw [hch, hre]
      simp
    have hnd2 : ((front ++ rns2.reverse) ++ n :: after).Nodup := by
      rw [← hch2]
      exact hnd
    have hnotin : n ∉ front ++ rns2.reverse := fun hmem =>
      (List.nodup_append.mp hnd2).2.2 hmem (List.mem_cons_self n after)
    rw [List.map_cons]
    rw [show insertPassRev d (some i :: rinsts2.map some) after.head? st
      = (match getFirstDom i with
         | none => insertPassRev d (rinsts2.map some) after.head? st
         | some fd => insertPassRev d (rinsts2.map some) (some fd)
             (insertInstance d (some i) after.head? st)) from rfl]
    rw [hfd]
    simp only []
    have hins : insertInstance d (some i) after.head? st = st := by
      show insertNodes d after.head? (getDomNodes i) st = st
      rw [hdn]
      refine insertNodes_skip d after.head? n st ?_ ?_
      · apply hup
        rw [hch2]
        simp
      · unfold nextSiblingOf
        rw [hch2]
        exact listNextAfter_append _ n after hnotin
    rw [hins]
    exact ih front (n :: after) st (by rw [hch2]) hnd hup

/-- The matching loop over keyless identical children re-pairs each new
child with the old instance at the same position and reconciles it to a
no-op. -/
theorem matchLoop_identical (native : String → Bool) (compEval : CompEval) (fl d : Nat)
    (path : String) (allNew : List VNode) (st : RState) :
    ∀ (suf pre : List Instance) (i : Nat),
      ((pre ++ suf).map Instance.id).Nodup →
      (∀ j ∈ suf, ∀ pth, reconcile native compEval fl d (some j) (some j.node) pth st
        = some (some j, st)) →
      matchLoop native compEval fl d path (suf.map Instance.node) i allNew []
        (pre ++ suf) (pre.map Instance.id) st
      = some (suf.map some, (pre ++ suf).map Instance.id, st) := by
  intro suf
  induction suf with
  | nil =>
    intro pre i hnd hrec
    rw [matchLoop.eq_def]
    simp
  | cons j suf ih =>
    intro pre i hnd hrec
    have hjid : j.id ∉ pre.map Instance.id := by
      rw [List.map_append, List.map_cons] at hnd
      exact fun hmem => (List.nodup_append.mp hnd).2.2 hmem (List.mem_cons_self _ _)
    have hfk : findKeyless (pre ++ j :: suf) (pre.map Instance.id) (Instance.node j).type
        = some j := by
      rw [findKeyless_skip (j :: suf) (pre.map Instance.id) (Instance.node j).type pre
        (fun m hm => by simpa using List.mem_map_of_mem Instance.id hm)]
      exact findKeyless_head j suf (pre.map Instance.id) (by simpa using hjid)
    have hm0 : (match (Instance.node j).key with
        | some k => alistGet ([] : List (String × Instance)) k
        | none => none) = (none : Option Instance) := by
      cases (Instance.node j).key <;> rfl
    rw [matchLoop.eq_def]
    simp only [List.map_cons, hm0, hfk, hrec j (List.mem_cons_self j suf)]
    rw [show pre ++ j :: suf = (pre ++ [j]) ++ suf from by simp,
      show pre.map Instance.id ++ [j.id] = (pre ++ [j]).map Instance.id from by simp]
    rw [ih (pre ++ [j]) (i + 1) (by simpa using hnd)
      (fun j2 hj2 pth => hrec j2 (List.mem_cons_of_mem j hj2) pth)]

/-- Identical re-render of a quiet keyless host/text tree is a strict
no-op: the same instance comes back and the state — including the
host-call log — is untouched. -/
theorem quiet_reconcile_noop (native : String → Bool) (compEval : CompEval) :
    ∀ (fuel : Nat) (p : Nat) (inst : Instance) (path : String) (st : RState),
      QuietInst native st.doc inst →
      UniqueParents st.doc →
      sizeOf inst ≤ fuel →
      reconcile native compEval (fuel + 1) p (some inst) (some inst.node) path st
        = some (some inst, st) := by
  intro fuel
  induction fuel with
  | zero =>
    intro p inst path st hq hup hsz
    exfalso
    cases inst
    simp at hsz
  | succ f ih =>
    intro p inst path st hq hup hsz
    have hnkey := quietInst_key hq
    have hcond : ¬ (inst.node.type ≠ inst.node.type ∨ inst.key ≠ inst.node.key) := by
      intro hc
      rcases hc with hc | hc
      · exact hc rfl
      · rw [hnkey] at hc
        exact hc rfl
    rw [reconcile.eq_def]
    simp only []
    rw [if_neg hcond]
    suffices hupd : updateInstance native compEval (f + 1) p inst inst.node path st
        = some (inst, st) by
      rw [hupd]
    cases hq with
    | text id d node key path2 hval hkey =>
      rw [updateInstance.eq_def]
      simp only [Instance.kind, Instance.dom, Instance.node, Instance.children,
        Instance.key, Instance.path, Instance.id]
      rw [if_neg (by rw [hval]; exact fun hc => hc rfl)]
    | host id d node children key path2 hkey hfields hch hdoc hnd hids hchk hsub =>
      have hszc : ∀ j ∈ children, sizeOf j ≤ f := by
        intro j hj
        have hmem : some j ∈ children.map some := List.mem_map_of_mem some hj
        have h1 := List.sizeOf_lt_of_mem hmem
        have h2 : sizeOf (some j) = 1 + sizeOf j := by simp
        simp only [Instance.mk.sizeOf_spec] at hsz
        omega
      have hrecs : ∀ j ∈ children, ∀ pth,
          reconcile native compEval (f + 1) d (some j) (some j.node) pth st
            = some (some j, st) :=
        fun j hj pth => ih d j pth st (hsub j hj) hup (hszc j hj)
      rw [updateInstance.eq_def]
      simp only [Instance.kind, Instance.dom, Instance.node, Instance.children,
        Instance.key, Instance.path, Instance.id]
      rw [updateDomProps_self native d node.fields node.style st hfields]
      suffices hrc : reconcileChildren native compEval (f + 1) d
          (Instance.mk id .hostK (some d) node (children.map some) key path2) node path st
          = some (children.map some, st) by
        rw [hrc]
      rw [reconcileChildren.eq_def]
      simp only [Instance.kind, Instance.dom, Instance.node, Instance.children,
        Instance.key, Instance.path, Instance.id]
      rw [partitionOld_keyless children hchk]
      simp only []
      rw [hch]
      have hml := matchLoop_identical native compEval (f + 1) d path
        (children.map Instance.node) st children [] 0 (by simpa using hids) hrecs
      simp only [List.nil_append, List.map_nil] at hml
      rw [hml]
      simp only []
      rw [removeLoop_all_used d (children.map some) (children.map Instance.id) st
        (fun i hi => by
          have : i ∈ children := by simpa using hi
          simpa using List.mem_map_of_mem Instance.id this)]
      have hfa : List.Forall₂ (fun i n => getFirstDom i = some n ∧ getDomNodes i = [n])
          children.reverse ((children.map fun i => i.dom.getD 0).reverse) :=
        forall2_reverse (forall2_map_self _ children
          (fun i hi => quietInst_doms (hsub i hi)))
      have hip := insertPassRev_inplace d children.reverse
        ((children.map fun i => i.dom.getD 0).reverse) hfa [] [] st
        (by simpa using hdoc) (by rw [hdoc]; exact hnd) hup
      simp only [List.head?_nil] at hip
      rw [show (children.map some).reverse = children.reverse.map some from by simp]
      rw [hip]

/-- **C8 (amended).** For keyless host/text trees whose surface agrees
with the store and whose props are quiet — no function-valued `on*`
handler, no nullish `data-*` entry, booleans only on native keys —
re-rendering with the identical unchanged tree performs zero
host-renderer mutation calls: the reconciler returns the same instance
and the state, including the host-call log, is exactly the input
state. -/
theorem c8_identical_rerender_noop (native : String → Bool) (compEval : CompEval)
    (fuel p : Nat) (inst : Instance) (path : String) (st : RState)
    (hq : QuietInst native st.doc inst)
    (hwf : uniqueParentsB st.doc = true)
    (hfuel : sizeOf inst ≤ fuel) :
    reconcile native compEval (fuel + 1) p (some inst) (some inst.node) path st
      = some (some inst, st) :=
  quiet_reconcile_noop native compEval fuel p inst path st hq
    (uniqueParentsB_sound hwf) hfuel

/-- Concrete identical re-render that is *not* silent: a keyless
non-component `div` carrying an unchanged `onClick` handler. -/
def c8Node : VNode := .mk (.host "div") none [("onClick", .pfn 0)] none [] none

def c8Inst : Instance := .mk 0 .hostK (some 0) c8Node [] none "r"

def c8St : RState := ⟨[(1, .elem "root" [0]), (0, .elem "div" [])], 2, 1, [], [], [], []⟩

/-- Counterexample to C8 as stated: re-rendering the identical keyless
non-component tree issues an `addEventListener` host call (the
next-props pass re-registers every function-valued `on*` handler even
when it is unchanged). -/
theorem c8_identical_rerender_counterexample :
    c8Node.key = none ∧ c8Node.children = [] ∧
    (∀ cid nm, c8Node.type ≠ .comp cid nm) ∧ c8St.log = [] ∧
    reconcile (fun _ => false) (fun _ _ => none) 1 1 (some c8Inst) (some c8Node) "r" c8St
      = some (some c8Inst, ⟨[(1, .elem "root" [0]), (0, .elem "div" [])], 2, 1,
          [.addListener 0 "click"], [], [], []⟩) := by
  refine ⟨rfl, rfl, fun cid nm h => by simp [c8Node, VNode.type] at h, rfl, ?_⟩
  rw [reconcile.eq_def]
  simp [updateInstance, reconcileChildren, matchLoop, partitionOld, removeLoop, insertPassRev,
    updateDomProps, updatePrevProp, updateNextProp, updateStyle, dedupKeys, lookupProp, hasProp,
    isFnProp, eventNameOf, strStartsWith, c8Inst, c8Node, c8St, Instance.kind, Instance.dom,
    Instance.node, Instance.children, Instance.key, Instance.path, Instance.id, VNode.type,
    VNode.key, VNode.fields, VNode.style, VNode.children, VNode.nodeValue, List.find?,
    List.isPrefixOf, Char.toLower]

/-- Concrete quiet scenario for the amended C8: a keyless `div` with a
`className` prop holding one text child, both in sync with the
store. -/
def c8TNode : VNode := .mk .text none [] none [] (some "hi")

def c8TInst : Instance := .mk 0 .textK (some 10) c8TNode [] none "r.i0"

def c8HNode : VNode := .mk (.host "div") none [("className", .pstr "box")] none [c8TNode] none

def c8HInst : Instance := .mk 1 .hostK (some 11) c8HNode [some c8TInst] none "r"

def c8QSt : RState :=
  ⟨[(11, .elem "div" [10]), (10, .textNode "hi"), (12, .elem "root" [11])], 13, 2, [], [], [], []⟩

/-- Witness for the amended C8 at the concrete quiet scenario. -/
theorem c8_identical_rerender_noop_witness :
    reconcile (fun _ => false) (fun _ _ => none) 10001 12 (some c8HInst) (some c8HInst.node)
      "r" c8QSt = some (some c8HInst, c8QSt) := by
  refine c8_identical_rerender_noop (fun _ => false) (fun _ _ => none) 10000 12 c8HInst "r"
    c8QSt ?_ (by decide) (by decide)
  refine QuietInst.host 1 11 c8HNode [c8TInst] none "r" rfl (by decide) rfl rfl (by decide)
    (by decide) (fun i hi => by
      have hit : i = c8TInst := by simpa using hi
      subst hit
      rfl) ?_
  intro i hi
  have hit : i = c8TInst := by simpa using hi
  subst hit
  exact QuietInst.text 0 10 c8TNode none "r.i0" rfl rfl

/-! ## Claim C1: keyed reordering reuses instances and orders the surface -/

end MiniReact
